import Mathlib

set_option maxRecDepth 2000

/-!
Verification of the `histogram` Rust crate (src/lib.rs): a log-linear
histogram with fixed bucket geometry.  The crate performs its bucket-index
arithmetic in IEEE-754 double precision (`f64`), so the embedding models the
`f64` operations exactly: every value that ever flows through the float
pipeline is a rational number, the conversions and arithmetic operations are
round-to-nearest, ties-to-even with a 53-bit significand (all values in the
program stay far inside the normal range of `f64`, so neither overflow nor
subnormals arise), and `floor`/`ceil`/casts are exact operations on those
rationals.  Machine integers (`u32`/`u64`) are modelled as `Nat` with
explicit reduction `% 2^32` / `% 2^64` at the points where the Rust code
performs wrapping or casting.
-/

/-- Number of values of `u32`. -/
def U32 : Nat := 2 ^ 32

/-- Number of values of `u64`. -/
def U64 : Nat := 2 ^ 64

/-- Bit length of a number below `256` (one byte), by direct case split. -/
def bl8 (n : Nat) : Nat :=
  if n = 0 then 0
  else if n < 2 then 1
  else if n < 4 then 2
  else if n < 8 then 3
  else if n < 16 then 4
  else if n < 32 then 5
  else if n < 64 then 6
  else if n < 128 then 7
  else 8

/-- Fuelled bit-length: processes one byte per step so that the kernel can
evaluate it quickly on large literals. -/
def blAux : Nat → Nat → Nat
  | 0, _ => 0
  | fuel + 1, n => if n < 256 then bl8 n else blAux fuel (n / 256) + 8

/-- Bit length of a natural number (`64 - leading_zeros` for a `u64`, etc.).
The fuel `512` makes it exact for every `n < 2 ^ 4096`, far beyond every
quantity produced by the program. -/
def bl (n : Nat) : Nat := blAux 512 n

theorem bl8_spec (n : Nat) (h : n < 256) (h0 : n ≠ 0) :
    2 ^ (bl8 n - 1) ≤ n ∧ n < 2 ^ bl8 n := by
  unfold bl8
  split_ifs <;> simp_all <;> omega

theorem bl8_zero : bl8 0 = 0 := rfl

theorem blAux_zero (fuel : Nat) : blAux fuel 0 = 0 := by
  cases fuel <;> simp [blAux, bl8_zero]

theorem blAux_spec (fuel : Nat) : ∀ n : Nat, n < 256 ^ fuel → n ≠ 0 →
    2 ^ (blAux fuel n - 1) ≤ n ∧ n < 2 ^ blAux fuel n := by
  induction fuel with
  | zero => intro n hn h0; omega
  | succ f ih =>
    intro n hn h0
    rw [blAux]
    split_ifs with hsmall
    · exact bl8_spec n hsmall h0
    · have hdiv : n / 256 < 256 ^ f := by
        rw [Nat.div_lt_iff_lt_mul (by norm_num)]
        calc n < 256 ^ (f + 1) := hn
          _ = 256 ^ f * 256 := by ring
      have hdiv0 : n / 256 ≠ 0 := by
        have : 256 ≤ n := by omega
        have := Nat.one_le_div_iff (by norm_num : 0 < 256) |>.mpr this
        omega
      obtain ⟨hlo, hhi⟩ := ih (n / 256) hdiv hdiv0
      have hb1 : 1 ≤ blAux f (n / 256) := by
        by_contra hb
        simp [Nat.lt_one_iff.mp (by omega : blAux f (n / 256) < 1)] at hhi
        omega
      constructor
      · have hmul : 2 ^ (blAux f (n / 256) - 1) * 256 ≤ (n / 256) * 256 :=
          Nat.mul_le_mul_right 256 hlo
        have hle : (n / 256) * 256 ≤ n := by
          have := Nat.div_mul_le_self n 256
          omega
        calc 2 ^ (blAux f (n / 256) + 8 - 1)
            = 2 ^ (blAux f (n / 256) - 1 + 8) := by congr 1; omega
          _ = 2 ^ (blAux f (n / 256) - 1) * 256 := by rw [Nat.pow_add]
          _ ≤ (n / 256) * 256 := hmul
          _ ≤ n := hle
      · have hup : n < (n / 256 + 1) * 256 := by
          have h1 := Nat.div_add_mod n 256
          have h2 : n % 256 < 256 := Nat.mod_lt _ (by norm_num)
          omega
        have h2 : (n / 256 + 1) * 256 ≤ 2 ^ blAux f (n / 256) * 256 := by
          exact Nat.mul_le_mul_right 256 hhi
        calc n < (n / 256 + 1) * 256 := hup
          _ ≤ 2 ^ blAux f (n / 256) * 256 := h2
          _ = 2 ^ (blAux f (n / 256) + 8) := by
              rw [show (256 : Nat) = 2 ^ 8 from rfl, ← Nat.pow_add]

theorem bl_zero : bl 0 = 0 := rfl

theorem bl_spec (n : Nat) (hn : n < 2 ^ 4096) (h0 : n ≠ 0) :
    2 ^ (bl n - 1) ≤ n ∧ n < 2 ^ bl n := by
  have : n < 256 ^ 512 := by
    calc n < 2 ^ 4096 := hn
      _ = 256 ^ 512 := by norm_num [← Nat.pow_mul]
  exact blAux_spec 512 n this h0

theorem bl_pos (n : Nat) (hn : n < 2 ^ 4096) (h0 : n ≠ 0) : 1 ≤ bl n := by
  obtain ⟨_, hhi⟩ := bl_spec n hn h0
  by_contra hb
  have hz : bl n = 0 := by omega
  rw [hz, pow_zero] at hhi
  omega

/-- `bl` is characterised by the usual bracketing, hence computes the
position of the highest set bit plus one. -/
theorem bl_eq_iff (n k : Nat) (hn : n < 2 ^ 4096) (h0 : n ≠ 0) :
    bl n = k + 1 ↔ (2 ^ k ≤ n ∧ n < 2 ^ (k + 1)) := by
  obtain ⟨hlo, hhi⟩ := bl_spec n hn h0
  have hb1 := bl_pos n hn h0
  constructor
  · intro h
    rw [h] at hlo hhi
    simpa using ⟨hlo, hhi⟩
  · rintro ⟨h1, h2⟩
    by_contra hne
    rcases Nat.lt_or_ge (bl n) (k + 1) with hlt | hge
    · have : n < 2 ^ k := by
        calc n < 2 ^ bl n := hhi
          _ ≤ 2 ^ k := Nat.pow_le_pow_right (by norm_num) (by omega)
      omega
    · have : 2 ^ (k + 1) ≤ n := by
        calc 2 ^ (k + 1) ≤ 2 ^ (bl n - 1) := Nat.pow_le_pow_right (by norm_num) (by omega)
          _ ≤ n := hlo
      omega

theorem bl_le_of_lt (n k : Nat) (hn : n < 2 ^ k) (hk : k ≤ 4096) : bl n ≤ k := by
  rcases Nat.eq_zero_or_pos n with h0 | h0
  · simp [h0, bl_zero]
  · have hn' : n < 2 ^ 4096 := by
      calc n < 2 ^ k := hn
        _ ≤ 2 ^ 4096 := Nat.pow_le_pow_right (by norm_num) hk
    obtain ⟨hlo, _⟩ := bl_spec n hn' (by omega)
    by_contra hb
    have : 2 ^ k ≤ 2 ^ (bl n - 1) := Nat.pow_le_pow_right (by norm_num) (by omega)
    omega

theorem le_bl_of_le (n k : Nat) (hk : 2 ^ k ≤ n) (hn : n < 2 ^ 4096) : k + 1 ≤ bl n := by
  have h0 : n ≠ 0 := by
    have := Nat.pos_pow_of_pos k (show 0 < 2 by norm_num)
    omega
  obtain ⟨_, hhi⟩ := bl_spec n hn h0
  by_contra hb
  have : 2 ^ bl n ≤ 2 ^ k := Nat.pow_le_pow_right (by norm_num) (by omega)
  omega

/-- A rational number represented as an unreduced fraction with an integer
numerator and natural-number denominator; all `f64` quantities of the
program are carried in this form so that the kernel can evaluate them. -/
structure Frac where
  num : Int
  den : Nat
  deriving DecidableEq, Repr

namespace Frac

/-- The rational value of a fraction. -/
def val (q : Frac) : ℚ := (q.num : ℚ) / (q.den : ℚ)

/-- Embed a natural number. -/
def ofNat (n : Nat) : Frac := ⟨(n : Int), 1⟩

/-- Exact product of the two rationals (no rounding; rounding is applied
separately by `roundF64`). -/
def mul (a b : Frac) : Frac := ⟨a.num * b.num, a.den * b.den⟩

/-- Exact difference. -/
def sub (a b : Frac) : Frac := ⟨a.num * (b.den : Int) - b.num * (a.den : Int), a.den * b.den⟩

/-- Exact sum. -/
def add (a b : Frac) : Frac := ⟨a.num * (b.den : Int) + b.num * (a.den : Int), a.den * b.den⟩

/-- Exact quotient; meaningful only for a positive divisor, which is the
only way the program ever divides. -/
def div (a b : Frac) : Frac := ⟨a.num * (b.den : Int), a.den * b.num.toNat⟩

/-- Comparison `a ≤ b` by cross multiplication (denominators are
nonnegative by construction). -/
def ble (a b : Frac) : Bool := a.num * (b.den : Int) ≤ b.num * (a.den : Int)

/-- Strict comparison `a < b`. -/
def blt (a b : Frac) : Bool := a.num * (b.den : Int) < b.num * (a.den : Int)

/-- Floor of the value, as an integer (`f64::floor` is exact). -/
def floorI (a : Frac) : Int := Int.fdiv a.num (a.den : Int)

/-- Ceiling of the value, as an integer (`f64::ceil` is exact). -/
def ceilI (a : Frac) : Int := -(Int.fdiv (-a.num) (a.den : Int))

theorem val_ofNat (n : Nat) : (ofNat n).val = (n : ℚ) := by
  simp [ofNat, val]

theorem val_mul (a b : Frac) (ha : a.den ≠ 0) (hb : b.den ≠ 0) :
    (mul a b).val = a.val * b.val := by
  simp only [mul, val]
  push_cast
  rw [div_mul_div_comm]

theorem val_sub (a b : Frac) (ha : a.den ≠ 0) (hb : b.den ≠ 0) :
    (sub a b).val = a.val - b.val := by
  simp only [sub, val]
  have ha' : (a.den : ℚ) ≠ 0 := Nat.cast_ne_zero.mpr ha
  have hb' : (b.den : ℚ) ≠ 0 := Nat.cast_ne_zero.mpr hb
  rw [div_sub_div _ _ ha' hb']
  push_cast
  ring

theorem val_add (a b : Frac) (ha : a.den ≠ 0) (hb : b.den ≠ 0) :
    (add a b).val = a.val + b.val := by
  simp only [add, val]
  have ha' : (a.den : ℚ) ≠ 0 := Nat.cast_ne_zero.mpr ha
  have hb' : (b.den : ℚ) ≠ 0 := Nat.cast_ne_zero.mpr hb
  rw [div_add_div _ _ ha' hb']
  push_cast
  ring

theorem val_div (a b : Frac) (ha : a.den ≠ 0) (hbd : b.den ≠ 0) (hb : 0 < b.num) :
    (div a b).val = a.val / b.val := by
  simp only [div, val]
  have hb' : (b.num.toNat : ℤ) = b.num := Int.toNat_of_nonneg (by omega)
  have ha' : (a.den : ℚ) ≠ 0 := Nat.cast_ne_zero.mpr ha
  have hbd' : (b.den : ℚ) ≠ 0 := Nat.cast_ne_zero.mpr hbd
  have hbq : (b.num : ℚ) ≠ 0 := by
    have hne : b.num ≠ 0 := by omega
    exact_mod_cast hne
  have hq : ((b.num.toNat : ℕ) : ℚ) = (b.num : ℚ) := by exact_mod_cast hb'
  push_cast
  rw [hq]
  field_simp

theorem ble_iff (a b : Frac) (ha : 0 < a.den) (hb : 0 < b.den) :
    ble a b = true ↔ a.val ≤ b.val := by
  simp only [ble, val, decide_eq_true_eq]
  rw [div_le_div_iff (by exact_mod_cast ha) (by exact_mod_cast hb)]
  constructor
  · intro h; exact_mod_cast h
  · intro h; exact_mod_cast h

theorem blt_iff (a b : Frac) (ha : 0 < a.den) (hb : 0 < b.den) :
    blt a b = true ↔ a.val < b.val := by
  simp only [blt, val, decide_eq_true_eq]
  rw [div_lt_div_iff (by exact_mod_cast ha) (by exact_mod_cast hb)]
  constructor
  · intro h; exact_mod_cast h
  · intro h; exact_mod_cast h

theorem floorI_eq (a : Frac) : floorI a = ⌊a.val⌋ := by
  rw [floorI, val, Int.fdiv_eq_ediv _ (by exact_mod_cast Nat.zero_le a.den)]
  exact (Rat.floor_intCast_div_natCast a.num a.den).symm

theorem ceilI_eq (a : Frac) : ceilI a = ⌈a.val⌉ := by
  rw [ceilI, val, Int.fdiv_eq_ediv _ (by exact_mod_cast Nat.zero_le a.den)]
  rw [← Rat.floor_intCast_div_natCast (-a.num) a.den]
  have : ((-a.num : ℤ) : ℚ) / (a.den : ℚ) = -((a.num : ℚ) / (a.den : ℚ)) := by
    push_cast
    ring
  rw [this, Int.floor_neg, neg_neg]

end Frac

namespace Frac

/-- Test `2 ^ c ≤ q` for a positive fraction `q`, by cross multiplication. -/
def qge2 (q : Frac) (c : Int) : Bool :=
  if 0 ≤ c then decide ((q.den : Int) * 2 ^ c.toNat ≤ q.num)
  else decide ((q.den : Int) ≤ q.num * 2 ^ (-c).toNat)

/-- Binary exponent of a positive fraction: the unique `e` with
`2 ^ e ≤ q < 2 ^ (e + 1)`. -/
def qexp (q : Frac) : Int :=
  let c : Int := (bl q.num.toNat : Int) - (bl q.den : Int)
  if qge2 q c then c else c - 1

/-- Round a nonnegative fraction `n / d` to the nearest integer, ties to
even — the tie-breaking rule of IEEE-754 binary64. -/
def rhe (n d : Nat) : Nat :=
  let fl := n / d
  let r := n % d
  if 2 * r < d then fl
  else if d < 2 * r then fl + 1
  else if fl % 2 = 0 then fl else fl + 1

/-- Round a positive rational to the nearest `f64` value: scale into
`[2^52, 2^53)`, round the 53-bit significand to nearest (ties to even) and
scale back.  All quantities reached by this program are far inside the
normal range, so exponent overflow and subnormals do not arise. -/
def roundPos (q : Frac) : Frac :=
  let e := qexp q
  let sn : Nat := if 0 ≤ 52 - e then q.num.toNat * 2 ^ (52 - e).toNat else q.num.toNat
  let sd : Nat := if 0 ≤ 52 - e then q.den else q.den * 2 ^ (e - 52).toNat
  let m := rhe sn sd
  if 0 ≤ e - 52 then ⟨((m * 2 ^ (e - 52).toNat : Nat) : Int), 1⟩
  else ⟨(m : Int), 2 ^ (52 - e).toNat⟩

/-- Round an arbitrary rational to the nearest `f64` value. -/
def roundF64 (q : Frac) : Frac :=
  if q.num = 0 then ⟨0, 1⟩
  else if q.num < 0 then
    let r := roundPos ⟨-q.num, q.den⟩
    ⟨-r.num, r.den⟩
  else roundPos q

theorem rhe_exact (n d : Nat) (hd : 0 < d) (h : d ∣ n) : rhe n d = n / d := by
  have hr : n % d = 0 := Nat.mod_eq_zero_of_dvd h
  simp [rhe, hr, hd]

end Frac

namespace Frac

theorem val_pos_of_num_pos (q : Frac) (hn : 0 < q.num) (hd : 0 < q.den) : 0 < q.val := by
  rw [val]
  positivity

theorem num_cast_eq_toNat (q : Frac) (hn : 0 ≤ q.num) : ((q.num.toNat : ℕ) : ℚ) = (q.num : ℚ) := by
  exact_mod_cast Int.toNat_of_nonneg hn

theorem qge2_iff (q : Frac) (c : Int) (hn : 0 < q.num) (hd : 0 < q.den) :
    qge2 q c = true ↔ (2 : ℚ) ^ c ≤ q.val := by
  have hdq : (0 : ℚ) < (q.den : ℚ) := by exact_mod_cast hd
  rw [qge2]
  split_ifs with hc
  · rw [decide_eq_true_eq, val, le_div_iff₀ hdq]
    have h1 : (2 : ℚ) ^ c = ((2 ^ c.toNat : ℕ) : ℚ) := by
      rw [← Int.toNat_of_nonneg hc, zpow_natCast]
      push_cast
      rw [Int.toNat_of_nonneg hc]
    rw [h1]
    constructor
    · intro h
      have h' : ((q.den : Int) * 2 ^ c.toNat : ℤ) ≤ q.num := h
      calc ((2 ^ c.toNat : ℕ) : ℚ) * (q.den : ℚ) = (((q.den : Int) * 2 ^ c.toNat : ℤ) : ℚ) := by
            push_cast; ring
        _ ≤ ((q.num : ℤ) : ℚ) := by exact_mod_cast h'
    · intro h
      have h' : (((q.den : Int) * 2 ^ c.toNat : ℤ) : ℚ) ≤ ((q.num : ℤ) : ℚ) := by
        calc (((q.den : Int) * 2 ^ c.toNat : ℤ) : ℚ) = ((2 ^ c.toNat : ℕ) : ℚ) * (q.den : ℚ) := by
              push_cast; ring
          _ ≤ (q.num : ℚ) := h
      exact_mod_cast h'
  · push_neg at hc
    rw [decide_eq_true_eq, val, le_div_iff₀ hdq]
    have h1 : (2 : ℚ) ^ c * ((2 ^ (-c).toNat : ℕ) : ℚ) = 1 := by
      have hcast : ((2 ^ (-c).toNat : ℕ) : ℚ) = (2 : ℚ) ^ (-c) := by
        rw [← Int.toNat_of_nonneg (by omega : (0:ℤ) ≤ -c), zpow_natCast]
        push_cast
        rw [Int.toNat_of_nonneg (by omega : (0:ℤ) ≤ -c)]
      rw [hcast, ← zpow_add₀ (two_ne_zero) c (-c)]
      simp
    have hpow_pos : (0 : ℚ) < ((2 ^ (-c).toNat : ℕ) : ℚ) := by positivity
    constructor
    · intro h
      have h' : ((q.den : ℤ) : ℚ) ≤ ((q.num * 2 ^ (-c).toNat : ℤ) : ℚ) := by exact_mod_cast h
      have h2 : (2 : ℚ) ^ c * (q.den : ℚ) ≤ (2 : ℚ) ^ c * ((q.num * 2 ^ (-c).toNat : ℤ) : ℚ) := by
        have hcp : (0 : ℚ) < (2 : ℚ) ^ c := zpow_pos (by norm_num) c
        exact mul_le_mul_of_nonneg_left (by push_cast at h' ⊢; linarith) (le_of_lt hcp)
      calc (2 : ℚ) ^ c * (q.den : ℚ) ≤ (2 : ℚ) ^ c * ((q.num * 2 ^ (-c).toNat : ℤ) : ℚ) := h2
        _ = (q.num : ℚ) * ((2 : ℚ) ^ c * ((2 ^ (-c).toNat : ℕ) : ℚ)) := by push_cast; ring
        _ = (q.num : ℚ) := by rw [h1, mul_one]
    · intro h
      have h2 : (2 : ℚ) ^ c * (q.den : ℚ) * ((2 ^ (-c).toNat : ℕ) : ℚ)
          ≤ (q.num : ℚ) * ((2 ^ (-c).toNat : ℕ) : ℚ) :=
        mul_le_mul_of_nonneg_right h (le_of_lt hpow_pos)
      have h3 : (q.den : ℚ) ≤ (q.num : ℚ) * ((2 ^ (-c).toNat : ℕ) : ℚ) := by
        calc (q.den : ℚ) = (2 : ℚ) ^ c * ((2 ^ (-c).toNat : ℕ) : ℚ) * (q.den : ℚ) := by
              rw [h1, one_mul]
          _ = (2 : ℚ) ^ c * (q.den : ℚ) * ((2 ^ (-c).toNat : ℕ) : ℚ) := by ring
          _ ≤ (q.num : ℚ) * ((2 ^ (-c).toNat : ℕ) : ℚ) := h2
      exact_mod_cast h3

theorem qexp_spec (q : Frac) (hn : 0 < q.num) (hd : 0 < q.den)
    (hnb : q.num.toNat < 2 ^ 4096) (hdb : q.den < 2 ^ 4096) :
    (2 : ℚ) ^ qexp q ≤ q.val ∧ q.val < (2 : ℚ) ^ (qexp q + 1) := by
  have ha0 : q.num.toNat ≠ 0 := by omega
  have hd0 : q.den ≠ 0 := by omega
  obtain ⟨halo, hahi⟩ := bl_spec q.num.toNat hnb ha0
  obtain ⟨hblo, hbhi⟩ := bl_spec q.den hdb hd0
  have ha1 := bl_pos q.num.toNat hnb ha0
  have hb1 := bl_pos q.den hdb hd0
  have hdq : (0 : ℚ) < (q.den : ℚ) := by exact_mod_cast hd
  have hnum_eq : ((q.num.toNat : ℕ) : ℚ) = (q.num : ℚ) := num_cast_eq_toNat q (by omega)
  -- upper bound: q.val < 2 ^ (bl num - bl den + 1)
  have hup : q.val < (2 : ℚ) ^ ((bl q.num.toNat : ℤ) - (bl q.den : ℤ) + 1) := by
    rw [val, div_lt_iff₀ hdq]
    have e1 : (q.num : ℚ) < ((2 ^ bl q.num.toNat : ℕ) : ℚ) := by
      rw [← hnum_eq]; exact_mod_cast hahi
    have e2 : ((2 ^ (bl q.den - 1) : ℕ) : ℚ) ≤ (q.den : ℚ) := by exact_mod_cast hblo
    have e3 : ((2 ^ bl q.num.toNat : ℕ) : ℚ)
        = (2 : ℚ) ^ ((bl q.num.toNat : ℤ) - (bl q.den : ℤ) + 1) * ((2 ^ (bl q.den - 1) : ℕ) : ℚ) := by
      push_cast
      rw [← zpow_natCast (2 : ℚ) (bl q.num.toNat), ← zpow_natCast (2 : ℚ) (bl q.den - 1),
        ← zpow_add₀ (two_ne_zero)]
      congr 1
      omega
    calc (q.num : ℚ) < ((2 ^ bl q.num.toNat : ℕ) : ℚ) := e1
      _ = (2 : ℚ) ^ ((bl q.num.toNat : ℤ) - (bl q.den : ℤ) + 1) * ((2 ^ (bl q.den - 1) : ℕ) : ℚ) := e3
      _ ≤ (2 : ℚ) ^ ((bl q.num.toNat : ℤ) - (bl q.den : ℤ) + 1) * (q.den : ℚ) := by
          have : (0:ℚ) < (2 : ℚ) ^ ((bl q.num.toNat : ℤ) - (bl q.den : ℤ) + 1) :=
            zpow_pos (by norm_num) _
          exact mul_le_mul_of_nonneg_left e2 (le_of_lt this)
  -- lower bound: 2 ^ (bl num - bl den - 1) < q.val
  have hlow : (2 : ℚ) ^ ((bl q.num.toNat : ℤ) - (bl q.den : ℤ) - 1) < q.val := by
    rw [val, lt_div_iff₀ hdq]
    have e1 : ((2 ^ (bl q.num.toNat - 1) : ℕ) : ℚ) ≤ (q.num : ℚ) := by
      rw [← hnum_eq]; exact_mod_cast halo
    have e2 : (q.den : ℚ) < ((2 ^ bl q.den : ℕ) : ℚ) := by exact_mod_cast hbhi
    have e3 : (2 : ℚ) ^ ((bl q.num.toNat : ℤ) - (bl q.den : ℤ) - 1) * ((2 ^ bl q.den : ℕ) : ℚ)
        = ((2 ^ (bl q.num.toNat - 1) : ℕ) : ℚ) := by
      push_cast
      rw [← zpow_natCast (2 : ℚ) (bl q.den), ← zpow_natCast (2 : ℚ) (bl q.num.toNat - 1),
        ← zpow_add₀ (two_ne_zero)]
      congr 1
      omega
    calc (2 : ℚ) ^ ((bl q.num.toNat : ℤ) - (bl q.den : ℤ) - 1) * (q.den : ℚ)
        < (2 : ℚ) ^ ((bl q.num.toNat : ℤ) - (bl q.den : ℤ) - 1) * ((2 ^ bl q.den : ℕ) : ℚ) := by
          have : (0:ℚ) < (2 : ℚ) ^ ((bl q.num.toNat : ℤ) - (bl q.den : ℤ) - 1) :=
            zpow_pos (by norm_num) _
          exact (mul_lt_mul_left this).mpr e2
      _ = ((2 ^ (bl q.num.toNat - 1) : ℕ) : ℚ) := e3
      _ ≤ (q.num : ℚ) := e1
  rw [qexp]
  set c : Int := (bl q.num.toNat : Int) - (bl q.den : Int) with hc
  by_cases hq : qge2 q c = true
  · simp only [hq, if_true]
    refine ⟨(qge2_iff q c hn hd).mp hq, ?_⟩
    exact hup
  · rw [if_neg hq]
    have hnotle : ¬ (2 : ℚ) ^ c ≤ q.val := fun h => hq ((qge2_iff q c hn hd).mpr h)
    push_neg at hnotle
    constructor
    · have : (2 : ℚ) ^ (c - 1) < q.val := hlow
      exact le_of_lt this
    · have : c - 1 + 1 = c := by ring
      rw [this]
      exact hnotle

end Frac

theorem zpow_bracket_unique (x : ℚ) (e f : ℤ) (he1 : (2:ℚ) ^ e ≤ x) (he2 : x < (2:ℚ) ^ (e + 1))
    (hf1 : (2:ℚ) ^ f ≤ x) (hf2 : x < (2:ℚ) ^ (f + 1)) : e = f := by
  by_contra h
  rcases lt_or_gt_of_ne h with hlt | hgt
  · have hle : (2:ℚ) ^ (e + 1) ≤ (2:ℚ) ^ f := zpow_le_zpow_right₀ one_le_two (by omega)
    linarith
  · have hle : (2:ℚ) ^ (f + 1) ≤ (2:ℚ) ^ e := zpow_le_zpow_right₀ one_le_two (by omega)
    linarith

theorem qpow_cast (k : ℕ) : ((2 ^ k : ℕ) : ℚ) = (2 : ℚ) ^ (k : ℤ) := by
  push_cast
  rw [zpow_natCast]

namespace Frac

theorem roundPos_formula (q : Frac) (N : ℕ)
    (hrhe : rhe (if 0 ≤ 52 - qexp q then q.num.toNat * 2 ^ (52 - qexp q).toNat else q.num.toNat)
        (if 0 ≤ 52 - qexp q then q.den else q.den * 2 ^ (qexp q - 52).toNat) = N) :
    roundPos q = if 0 ≤ qexp q - 52 then ⟨((N * 2 ^ (qexp q - 52).toNat : Nat) : Int), 1⟩
      else ⟨(N : Int), 2 ^ (52 - qexp q).toNat⟩ := by
  simp only [roundPos]
  rw [hrhe]

theorem roundPos_exact_odd (q : Frac) (m : ℕ) (z : ℤ)
    (hn : 0 < q.num) (hd : 0 < q.den)
    (hnb : q.num.toNat < 2 ^ 4096) (hdb : q.den < 2 ^ 4096)
    (hmodd : m % 2 = 1) (hm53 : m < 2 ^ 53) (hz : z.natAbs ≤ 253)
    (hv : q.val = (m : ℚ) * (2 : ℚ) ^ z) :
    (roundPos q).val = q.val ∧ 0 < (roundPos q).num ∧ 0 < (roundPos q).den ∧
      (roundPos q).num.toNat ≤ 2 ^ 306 ∧ (roundPos q).den ≤ 2 ^ 306 := by
  have hm0 : 0 < m := by omega
  have hm4096 : m < 2 ^ 4096 :=
    lt_of_lt_of_le hm53 (Nat.pow_le_pow_right (by norm_num) (by norm_num))
  obtain ⟨hmlo, hmhi⟩ := bl_spec m hm4096 (by omega)
  have hbl1 : 1 ≤ bl m := bl_pos m hm4096 (by omega)
  have hbl53 : bl m ≤ 53 := bl_le_of_lt m 53 hm53 (by norm_num)
  obtain ⟨helo, hehi⟩ := qexp_spec q hn hd hnb hdb
  have hdq : (0 : ℚ) < (q.den : ℚ) := by exact_mod_cast hd
  have hnum_eq : ((q.num.toNat : ℕ) : ℚ) = (q.num : ℚ) := num_cast_eq_toNat q (by omega)
  -- the input value lies in [2^(bl m + z - 1), 2^(bl m + z))
  have hv1 : (2:ℚ) ^ ((bl m : ℤ) + z - 1) ≤ q.val := by
    rw [hv]
    have h1 : (2:ℚ) ^ ((bl m : ℤ) - 1) ≤ (m : ℚ) := by
      have hc : ((2 ^ (bl m - 1) : ℕ) : ℚ) ≤ (m : ℚ) := by exact_mod_cast hmlo
      calc (2:ℚ) ^ ((bl m : ℤ) - 1) = ((2 ^ (bl m - 1) : ℕ) : ℚ) := by
            rw [qpow_cast]; congr 1; omega
        _ ≤ (m : ℚ) := hc
    calc (2:ℚ) ^ ((bl m : ℤ) + z - 1) = (2:ℚ) ^ ((bl m : ℤ) - 1) * (2:ℚ) ^ z := by
          rw [← zpow_add₀ (two_ne_zero : (2:ℚ) ≠ 0)]; congr 1; ring
      _ ≤ (m : ℚ) * (2:ℚ) ^ z :=
          mul_le_mul_of_nonneg_right h1 (le_of_lt (zpow_pos (by norm_num) z))
  have hv2 : q.val < (2:ℚ) ^ ((bl m : ℤ) + z) := by
    rw [hv]
    have h1 : (m : ℚ) < (2:ℚ) ^ ((bl m : ℕ) : ℤ) := by
      have hc : (m : ℚ) < ((2 ^ bl m : ℕ) : ℚ) := by exact_mod_cast hmhi
      rwa [qpow_cast] at hc
    calc (m : ℚ) * (2:ℚ) ^ z < (2:ℚ) ^ ((bl m : ℕ) : ℤ) * (2:ℚ) ^ z :=
          mul_lt_mul_of_pos_right h1 (zpow_pos (by norm_num) z)
      _ = (2:ℚ) ^ ((bl m : ℤ) + z) := by rw [← zpow_add₀ (two_ne_zero : (2:ℚ) ≠ 0)]
  have he : qexp q = (bl m : ℤ) + z - 1 := by
    apply zpow_bracket_unique q.val (qexp q) ((bl m : ℤ) + z - 1) helo hehi hv1
    rw [show (bl m : ℤ) + z - 1 + 1 = (bl m : ℤ) + z by ring]
    exact hv2
  -- the scaled significand
  have hNpos : 0 < m * 2 ^ (53 - bl m) :=
    Nat.mul_pos hm0 (Nat.pos_pow_of_pos _ (by norm_num))
  have hN53 : m * 2 ^ (53 - bl m) < 2 ^ 53 := by
    calc m * 2 ^ (53 - bl m) < 2 ^ bl m * 2 ^ (53 - bl m) := by
          have hp : 0 < 2 ^ (53 - bl m) := Nat.pos_pow_of_pos _ (by norm_num)
          exact (Nat.mul_lt_mul_right hp).mpr hmhi
      _ = 2 ^ 53 := by rw [← Nat.pow_add]; congr 1; omega
  have hNq : ((m * 2 ^ (53 - bl m) : ℕ) : ℚ) = q.val * (2:ℚ) ^ (52 - qexp q) := by
    have hcast : ((m * 2 ^ (53 - bl m) : ℕ) : ℚ) = (m : ℚ) * (2:ℚ) ^ ((53 - bl m : ℕ) : ℤ) := by
      push_cast
      rw [zpow_natCast]
    rw [hcast, hv, mul_assoc, ← zpow_add₀ (two_ne_zero : (2:ℚ) ≠ 0)]
    congr 2
    rw [he]
    omega
  set N : ℕ := m * 2 ^ (53 - bl m) with hNdef
  -- compute the scaled numerator and denominator, and the rounding, by cases
  have hsplit : rhe (if 0 ≤ 52 - qexp q then q.num.toNat * 2 ^ (52 - qexp q).toNat else q.num.toNat)
      (if 0 ≤ 52 - qexp q then q.den else q.den * 2 ^ (qexp q - 52).toNat) = N := by
    by_cases hcase : 0 ≤ 52 - qexp q
    · rw [if_pos hcase, if_pos hcase]
      have hsval : ((q.num.toNat * 2 ^ (52 - qexp q).toNat : ℕ) : ℚ) = (N : ℚ) * (q.den : ℚ) := by
        push_cast
        rw [hnum_eq]
        have h2 : ((2:ℚ) ^ (52 - qexp q).toNat) = (2:ℚ) ^ (52 - qexp q) := by
          rw [← zpow_natCast (2:ℚ) (52 - qexp q).toNat, Int.toNat_of_nonneg hcase]
        rw [h2, hNq, val]
        field_simp
      have hsn : q.num.toNat * 2 ^ (52 - qexp q).toNat = N * q.den := by
        have hpc := hsval
        push_cast at hpc
        exact_mod_cast hpc
      rw [hsn, rhe_exact (N * q.den) q.den hd ⟨N, mul_comm N q.den⟩, Nat.mul_div_cancel N hd]
    · rw [if_neg hcase, if_neg hcase]
      have hsd_pos : 0 < q.den * 2 ^ (qexp q - 52).toNat := by positivity
      have h2 : ((2:ℚ) ^ (qexp q - 52).toNat) = (2:ℚ) ^ (qexp q - 52) := by
        rw [← zpow_natCast (2:ℚ) (qexp q - 52).toNat, Int.toNat_of_nonneg (by omega)]
      have hcancel : (2:ℚ) ^ (52 - qexp q) * (2:ℚ) ^ (qexp q - 52) = 1 := by
        rw [← zpow_add₀ (two_ne_zero : (2:ℚ) ≠ 0)]
        norm_num
      have hsval : (N : ℚ) * ((q.den : ℚ) * (2:ℚ) ^ (qexp q - 52)) = (q.num : ℚ) := by
        calc (N : ℚ) * ((q.den : ℚ) * (2:ℚ) ^ (qexp q - 52))
            = q.val * (2:ℚ) ^ (52 - qexp q) * ((q.den : ℚ) * (2:ℚ) ^ (qexp q - 52)) := by
              rw [hNq]
          _ = q.val * (q.den : ℚ) * ((2:ℚ) ^ (52 - qexp q) * (2:ℚ) ^ (qexp q - 52)) := by ring
          _ = q.val * (q.den : ℚ) := by rw [hcancel, mul_one]
          _ = (q.num : ℚ) := by rw [val, div_mul_cancel₀ _ (ne_of_gt hdq)]
      have hsn : q.num.toNat = N * (q.den * 2 ^ (qexp q - 52).toNat) := by
        have hq : ((q.num.toNat : ℕ) : ℚ) = ((N * (q.den * 2 ^ (qexp q - 52).toNat) : ℕ) : ℚ) := by
          rw [hnum_eq, ← hsval]
          push_cast
          rw [h2]
        exact_mod_cast hq
      rw [hsn,
        rhe_exact (N * (q.den * 2 ^ (qexp q - 52).toNat)) (q.den * 2 ^ (qexp q - 52).toNat)
          hsd_pos ⟨N, mul_comm N _⟩,
        Nat.mul_div_cancel N hsd_pos]
  rw [roundPos_formula q N hsplit]
  have hzrange : -253 ≤ z ∧ z ≤ 253 := by omega
  have herange : -253 ≤ qexp q ∧ qexp q ≤ 305 := by
    constructor <;> [skip; skip] <;> rw [he] <;> omega
  by_cases hout : 0 ≤ qexp q - 52
  · rw [if_pos hout]
    refine ⟨?_, ?_, ?_, ?_, ?_⟩
    · -- value: N * 2^(e-52) / 1 = q.val
      show ((N * 2 ^ (qexp q - 52).toNat : ℕ) : ℚ) / ((1 : ℕ) : ℚ) = q.val
      rw [Nat.cast_one, div_one]
      push_cast
      have h2 : ((2:ℚ) ^ (qexp q - 52).toNat) = (2:ℚ) ^ (qexp q - 52) := by
        rw [← zpow_natCast (2:ℚ) (qexp q - 52).toNat, Int.toNat_of_nonneg hout]
      rw [h2, hNq]
      have hcancel : (2:ℚ) ^ (52 - qexp q) * (2:ℚ) ^ (qexp q - 52) = 1 := by
        rw [← zpow_add₀ (two_ne_zero : (2:ℚ) ≠ 0)]
        norm_num
      calc q.val * (2:ℚ) ^ (52 - qexp q) * (2:ℚ) ^ (qexp q - 52)
          = q.val * ((2:ℚ) ^ (52 - qexp q) * (2:ℚ) ^ (qexp q - 52)) := by ring
        _ = q.val := by rw [hcancel, mul_one]
    · show 0 < ((N * 2 ^ (qexp q - 52).toNat : ℕ) : Int)
      exact_mod_cast Nat.mul_pos hNpos (Nat.pos_pow_of_pos _ (by norm_num))
    · norm_num
    · show ((N * 2 ^ (qexp q - 52).toNat : ℕ) : Int).toNat ≤ 2 ^ 306
      rw [Int.toNat_natCast]
      have h1 : (qexp q - 52).toNat ≤ 253 := by omega
      calc N * 2 ^ (qexp q - 52).toNat ≤ 2 ^ 53 * 2 ^ 253 := by
            apply Nat.mul_le_mul (le_of_lt hN53) (Nat.pow_le_pow_right (by norm_num) h1)
        _ ≤ 2 ^ 306 := by norm_num [← Nat.pow_add]
    · show (1 : ℕ) ≤ 2 ^ 306
      exact Nat.one_le_two_pow
  · rw [if_neg hout]
    refine ⟨?_, ?_, ?_, ?_, ?_⟩
    · show ((N : ℤ) : ℚ) / ((2 ^ (52 - qexp q).toNat : ℕ) : ℚ) = q.val
      push_cast
      have h2 : ((2:ℚ) ^ (52 - qexp q).toNat) = (2:ℚ) ^ (52 - qexp q) := by
        rw [← zpow_natCast (2:ℚ) (52 - qexp q).toNat, Int.toNat_of_nonneg (by omega)]
      rw [h2]
      have hNq' : (N : ℚ) = q.val * (2:ℚ) ^ (52 - qexp q) := hNq
      rw [hNq']
      have hpow_ne : (2:ℚ) ^ (52 - qexp q) ≠ 0 := by
        apply zpow_ne_zero
        norm_num
      field_simp
    · show 0 < (N : ℤ)
      exact_mod_cast hNpos
    · show 0 < 2 ^ (52 - qexp q).toNat
      exact Nat.pos_pow_of_pos _ (by norm_num)
    · show ((N : ℤ)).toNat ≤ 2 ^ 306
      rw [Int.toNat_natCast]
      calc N ≤ 2 ^ 53 := le_of_lt hN53
        _ ≤ 2 ^ 306 := Nat.pow_le_pow_right (by norm_num) (by norm_num)
    · show 2 ^ (52 - qexp q).toNat ≤ 2 ^ 306
      apply Nat.pow_le_pow_right (by norm_num)
      omega

end Frac

namespace Frac

theorem roundPos_exact (q : Frac) (m : ℕ) (z : ℤ)
    (hn : 0 < q.num) (hd : 0 < q.den)
    (hnb : q.num.toNat < 2 ^ 4096) (hdb : q.den < 2 ^ 4096)
    (hm53 : m ≤ 2 ^ 53) (hz : z.natAbs ≤ 200)
    (hv : q.val = (m : ℚ) * (2 : ℚ) ^ z) :
    (roundPos q).val = q.val ∧ 0 < (roundPos q).num ∧ 0 < (roundPos q).den ∧
      (roundPos q).num.toNat ≤ 2 ^ 306 ∧ (roundPos q).den ≤ 2 ^ 306 := by
  have hvpos : 0 < q.val := val_pos_of_num_pos q hn hd
  have hm0 : m ≠ 0 := by
    rintro rfl
    rw [hv] at hvpos
    simp at hvpos
  set v : ℕ := m.factorization 2 with hvdef
  have hfact : 2 ^ v * (m / 2 ^ v) = m := Nat.ordProj_mul_ordCompl_eq_self m 2
  have hodd : ¬ 2 ∣ (m / 2 ^ v) := Nat.not_dvd_ordCompl Nat.prime_two hm0
  have hodd' : (m / 2 ^ v) % 2 = 1 := by
    rcases Nat.mod_two_eq_zero_or_one (m / 2 ^ v) with h | h
    · exact absurd (Nat.dvd_of_mod_eq_zero h) hodd
    · exact h
  have hmle : m / 2 ^ v ≤ m := Nat.div_le_self m (2 ^ v)
  have hmodd53 : m / 2 ^ v < 2 ^ 53 := by
    rcases Nat.lt_or_ge (m / 2 ^ v) (2 ^ 53) with h | h
    · exact h
    · exfalso
      have heq : m / 2 ^ v = 2 ^ 53 := by omega
      rw [heq] at hodd'
      norm_num at hodd'
  have hvle : v ≤ 53 := by
    have h1 : 2 ^ v ≤ m := Nat.ordProj_le 2 hm0
    have h2 : 2 ^ v ≤ 2 ^ 53 := le_trans h1 hm53
    exact (Nat.pow_le_pow_iff_right (by norm_num)).mp h2
  have hznew : (z + v).natAbs ≤ 253 := by
    have h2 : (v : ℤ) ≤ 53 := by exact_mod_cast hvle
    rcases Int.le_total 0 (z + (v : ℤ)) with h6 | h6
    · have h7 := Int.natAbs_of_nonneg h6
      omega
    · have h7 := Int.ofNat_natAbs_of_nonpos h6
      omega
  have hvq : q.val = ((m / 2 ^ v : ℕ) : ℚ) * (2 : ℚ) ^ (z + v) := by
    rw [hv]
    have hm_eq : (m : ℚ) = ((m / 2 ^ v : ℕ) : ℚ) * ((2 ^ v : ℕ) : ℚ) := by
      rw [← Nat.cast_mul]
      congr 1
      exact (Nat.div_mul_cancel (Nat.ordProj_dvd m 2)).symm
    rw [hm_eq, qpow_cast, mul_assoc, ← zpow_add₀ (two_ne_zero : (2:ℚ) ≠ 0)]
    congr 1
    ring
  exact roundPos_exact_odd q (m / 2 ^ v) (z + v) hn hd hnb hdb hodd' hmodd53 hznew hvq

/-- Exactness of `roundF64`: a nonnegative rational of the form `m * 2^z`
with `m ≤ 2^53` (and exponent far inside the binary64 range) is an exact
`f64` value, so rounding returns it unchanged.  The conclusion also bounds
the output representation, so that further operations stay inside the
domain where `bl` is exact. -/
theorem roundF64_exact (q : Frac) (m : ℕ) (z : ℤ)
    (hn : 0 ≤ q.num) (hd : 0 < q.den)
    (hnb : q.num.toNat < 2 ^ 4096) (hdb : q.den < 2 ^ 4096)
    (hm53 : m ≤ 2 ^ 53) (hz : z.natAbs ≤ 200)
    (hv : q.val = (m : ℚ) * (2 : ℚ) ^ z) :
    (roundF64 q).val = q.val ∧ 0 ≤ (roundF64 q).num ∧ 0 < (roundF64 q).den ∧
      (roundF64 q).num.toNat ≤ 2 ^ 306 ∧ (roundF64 q).den ≤ 2 ^ 306 := by
  rw [roundF64]
  rcases Nat.eq_zero_or_pos q.num.toNat with hz0 | hpos
  · have hq0 : q.num = 0 := by omega
    rw [if_pos hq0]
    have hval0 : q.val = 0 := by rw [val, hq0]; simp
    refine ⟨?_, by norm_num, by norm_num, by norm_num, ?_⟩
    · rw [hval0]
      show ((0 : ℤ) : ℚ) / ((1 : ℕ) : ℚ) = 0
      norm_num
    · show (1 : ℕ) ≤ 2 ^ 306
      exact Nat.one_le_two_pow
  · have hq1 : ¬ q.num = 0 := by omega
    have hq2 : ¬ q.num < 0 := by omega
    rw [if_neg hq1, if_neg hq2]
    obtain ⟨h1, h2, h3, h4, h5⟩ :=
      roundPos_exact q m z (by omega) hd hnb hdb hm53 hz hv
    exact ⟨h1, le_of_lt h2, h3, h4, h5⟩

/-- Specialisation: rounding an integer value `N ≤ 2^53` is exact. -/
theorem roundF64_natval (q : Frac) (N : ℕ)
    (hn : 0 ≤ q.num) (hd : 0 < q.den)
    (hnb : q.num.toNat < 2 ^ 4096) (hdb : q.den < 2 ^ 4096)
    (hN : N ≤ 2 ^ 53) (hv : q.val = (N : ℚ)) :
    (roundF64 q).val = (N : ℚ) ∧ 0 ≤ (roundF64 q).num ∧ 0 < (roundF64 q).den ∧
      (roundF64 q).num.toNat ≤ 2 ^ 306 ∧ (roundF64 q).den ≤ 2 ^ 306 := by
  have hv' : q.val = (N : ℚ) * (2 : ℚ) ^ (0 : ℤ) := by rw [hv]; norm_num
  obtain ⟨h1, h2, h3, h4, h5⟩ := roundF64_exact q N 0 hn hd hnb hdb hN (by norm_num) hv'
  rw [hv] at h1
  exact ⟨h1, h2, h3, h4, h5⟩

end Frac

/-- Decidable equality for `Except`, needed to evaluate results of the
embedded fallible operations on concrete inputs. -/
instance exceptDecEq {ε α : Type} [DecidableEq ε] [DecidableEq α] :
    DecidableEq (Except ε α) := fun x y =>
  match x, y with
  | .ok a, .ok b =>
    if h : a = b then isTrue (by rw [h]) else isFalse (fun hc => by cases hc; exact h rfl)
  | .error a, .error b =>
    if h : a = b then isTrue (by rw [h]) else isFalse (fun hc => by cases hc; exact h rfl)
  | .ok _, .error _ => isFalse (fun hc => by cases hc)
  | .error _, .ok _ => isFalse (fun hc => by cases hc)

/-! ## Machine-integer helpers and `f64` operations -/

/-- Saturating `u64` addition (`u64::saturating_add`). -/
def satAdd64 (a b : Nat) : Nat := min (a + b) (U64 - 1)

/-- Wrapping `u32` subtraction (arguments below `U32`). -/
def u32sub (a b : Nat) : Nat := (U32 + a - b) % U32

/-- Wrapping `u64` subtraction (arguments below `U64`). -/
def u64sub (a b : Nat) : Nat := (U64 + a - b) % U64

/-- `as u64` cast of an integral `f64` value: truncation with saturation. -/
def toU64sat (z : Int) : Nat := min z.toNat (U64 - 1)

/-- `as u32` cast of an integral `f64` value: truncation with saturation. -/
def toU32sat (z : Int) : Nat := min z.toNat (U32 - 1)

/-- `as isize` reinterpretation of a `u64` value (two's complement). -/
def u64toIsize (n : Nat) : Int := if n < 2 ^ 63 then (n : Int) else (n : Int) - (U64 : Int)

/-- `value as f64` for a `u64` (rounds when `value` exceeds `2^53`). -/
def f64ofNat (n : Nat) : Frac := Frac.roundF64 (Frac.ofNat n)

/-- `2.0_f64.powi(k)` for `0 ≤ k`: exact powers of two. -/
def pow2F (k : Nat) : Frac := ⟨((2 ^ k : Nat) : Int), 1⟩

/-- `f64` multiplication: exact product, then round to nearest. -/
def fmul (a b : Frac) : Frac := Frac.roundF64 (Frac.mul a b)

/-- `f64` subtraction. -/
def fsub (a b : Frac) : Frac := Frac.roundF64 (Frac.sub a b)

/-- `f64` addition. -/
def fadd (a b : Frac) : Frac := Frac.roundF64 (Frac.add a b)

/-- `f64` division (positive divisor). -/
def fdivF (a b : Frac) : Frac := Frac.roundF64 (Frac.div a b)

/-! ## The histogram data model (src/lib.rs) -/

/-- `HistogramConfig`: all four fields are private in the crate; `radix` has
no setter and is always `10` in any value reachable through the public
API. -/
structure HistogramConfig where
  precision : Nat
  max_memory : Nat
  max_value : Nat
  radix : Nat
  deriving DecidableEq, Repr

/-- `HistogramConfig::default()` / `HistogramConfig::new()`. -/
def HistogramConfig.new : HistogramConfig :=
  { precision := 3, max_memory := 0, max_value := 60000000000, radix := 10 }

/-- `HistogramConfig::precision` builder setter. -/
def HistogramConfig.set_precision (c : HistogramConfig) (p : Nat) : HistogramConfig :=
  { c with precision := p }

/-- `HistogramConfig::max_memory` builder setter. -/
def HistogramConfig.set_max_memory (c : HistogramConfig) (bytes : Nat) : HistogramConfig :=
  { c with max_memory := bytes }

/-- `HistogramConfig::max_value` builder setter. -/
def HistogramConfig.set_max_value (c : HistogramConfig) (m : Nat) : HistogramConfig :=
  { c with max_value := m }

/-- `HistogramCounters`: the scalar counters, all `u64`. -/
structure HistogramCounters where
  entries_total : Nat
  missed_unknown : Nat
  missed_small : Nat
  missed_large : Nat
  deriving DecidableEq, Repr

/-- `HistogramCounters::new()`. -/
def HistogramCounters.new : HistogramCounters :=
  { entries_total := 0, missed_unknown := 0, missed_small := 0, missed_large := 0 }

/-- `HistogramCounters::clear()` (functional result of the in-place reset). -/
def HistogramCounters.clear (_c : HistogramCounters) : HistogramCounters :=
  { entries_total := 0, missed_unknown := 0, missed_small := 0, missed_large := 0 }

/-- `HistogramData`: the bucket array (a `Vec<u64>`), counters, and the
embedded iteration cursor. -/
structure HistogramData where
  data : List Nat
  counters : HistogramCounters
  iterator : Nat
  deriving DecidableEq, Repr

/-- `HistogramProperties`: the derived bucket geometry (`u32` fields, plus
the `u64` `linear_max`). -/
structure HistogramProperties where
  buckets_inner : Nat
  buckets_outer : Nat
  buckets_total : Nat
  memory_used : Nat
  linear_max : Nat
  linear_power : Nat
  deriving DecidableEq, Repr

/-! ### Geometry as a function of the configuration -/

/-- `buckets_inner` as computed by `configured` (`u32` power). -/
def bucketsInnerOf (c : HistogramConfig) : Nat := c.radix ^ c.precision % U32

/-- `linear_power` as computed by `configured`. -/
def linearPowerOf (c : HistogramConfig) : Nat := bl (bucketsInnerOf c)

/-- `linear_max` as computed by `configured`. -/
def linearMaxOf (c : HistogramConfig) : Nat := 2 ^ linearPowerOf c - 1

/-- `buckets_outer` as computed by `configured`. -/
def bucketsOuterOf (c : HistogramConfig) : Nat :=
  if bl c.max_value > linearPowerOf c then bl c.max_value - linearPowerOf c else 0

/-- `buckets_total` as computed by `configured`. -/
def bucketsTotalOf (c : HistogramConfig) : Nat :=
  (bucketsInnerOf c * bucketsOuterOf c + linearMaxOf c) % U32

/-- `memory_used` as computed by `configured` (`size_of::<HistogramBucket>()` is 24). -/
def memoryUsedOf (c : HistogramConfig) : Nat := bucketsTotalOf c * 24 % U32

/-- The `Histogram`. -/
structure Histogram where
  config : HistogramConfig
  data : HistogramData
  properties : HistogramProperties
  deriving DecidableEq, Repr

namespace Histogram

/-- `Histogram::configured(config)`.  `radix.pow(precision)` is `u32`
arithmetic (reduced mod `2^32`); `linear_power = 32 - leading_zeros` is the
bit length; `2.0f64.powi(linear_power) as u64 - 1` is exact because
`linear_power ≤ 32`; `size_of::<HistogramBucket>()` is 24. -/
def configured (config : HistogramConfig) : Option Histogram :=
  if config.max_memory > 0 ∧ config.max_memory < memoryUsedOf config then none
  else some
    { config := config
      data :=
        { data := List.replicate (bucketsTotalOf config) 0
          counters := HistogramCounters.new
          iterator := 0 }
      properties :=
        { buckets_inner := bucketsInnerOf config
          buckets_outer := bucketsOuterOf config
          buckets_total := bucketsTotalOf config
          memory_used := memoryUsedOf config
          linear_max := linearMaxOf config
          linear_power := linearPowerOf config } }

/-- `Histogram::new()`. -/
def new : Option Histogram := configured HistogramConfig.new

/-- `Histogram::get_index(value)`: the log-linear index map, with the
logarithmic branch computed in `f64` exactly as the source does. -/
def get_index (h : Histogram) (value : Nat) : Option Nat :=
  if 1 ≤ value then
    if value ≤ h.properties.linear_max then
      some (value - 1)
    else
      let l_max : Nat := h.properties.linear_max % U32
      let outer : Nat := bl value - 1
      let l_power : Nat := bl h.properties.linear_max
      let remain : Frac := fsub (f64ofNat value) (pow2F outer)
      let inner : Nat := toU32sat (Frac.floorI
        (fdivF (fmul (f64ofNat h.properties.buckets_inner) remain) (pow2F outer)))
      let outer2 : Nat := u32sub outer l_power
      some ((l_max + h.properties.buckets_inner * outer2 + inner) % U32)
  else none

/-- `Histogram::index_value(index)`: the representative value of a bucket.
The `(outer + linear_power) as i32` exponent stays far below `2^31` for
every histogram reachable through `configured`, so the wrapped exponent is
modelled as a plain power of two in that range and reciprocally beyond. -/
def index_value (h : Histogram) (index : Nat) : Nat :=
  let index32 : Nat := index % U32
  let linear_max : Nat := h.properties.linear_max % U32
  if index32 < linear_max then (index32 + 1) % U32
  else
    let log_index : Nat := u32sub index32 linear_max
    let outer : Nat := toU32sat (Frac.floorI
      (fdivF (f64ofNat log_index) (f64ofNat h.properties.buckets_inner)))
    let inner : Nat := u32sub log_index (outer * h.properties.buckets_inner % U32)
    let e32 : Nat := (outer + h.properties.linear_power) % U32
    let base : Frac := if e32 < 2 ^ 31 then pow2F e32 else ⟨1, 2 ^ (U32 - e32)⟩
    let value : Frac :=
      fadd base (fmul (f64ofNat inner) (fdivF base (f64ofNat h.properties.buckets_inner)))
    toU64sat (Frac.ceilI value)

/-- `Histogram::record(value, count)`.  The result is `none` when the Rust
code would panic with an out-of-bounds bucket write; otherwise it is the
updated histogram together with the returned `Result`. -/
def record (h : Histogram) (value count : Nat) : Option (Histogram × Except String Unit) :=
  let h1 : Histogram :=
    { h with data.counters.entries_total := satAdd64 h.data.counters.entries_total count }
  if value < 1 then
    some ({ h1 with data.counters.missed_small := satAdd64 h1.data.counters.missed_small count },
      Except.error "sample value too small")
  else if value > h.config.max_value then
    some ({ h1 with data.counters.missed_large := satAdd64 h1.data.counters.missed_large count },
      Except.error "sample value too large")
  else
    match get_index h1 value with
    | some index =>
      if index < h1.data.data.length then
        some ({ h1 with
          data.data := h1.data.data.set index (satAdd64 (h1.data.data.getD index 0) count) },
          Except.ok ())
      else none
    | none =>
      some ({ h1 with
        data.counters.missed_unknown := satAdd64 h1.data.counters.missed_unknown count },
        Except.error "sample unknown error")

/-- `Histogram::increment(value)`. -/
def increment (h : Histogram) (value : Nat) : Option (Histogram × Except String Unit) :=
  record h value 1

/-- `Histogram::get(value)`:  `none` models the panic of an out-of-bounds
read (the source indexes the bucket array without re-checking
`max_value`); `some none` is the absent result for `value < 1`;
`some (some c)` is a returned counter. -/
def get (h : Histogram) (value : Nat) : Option (Option Nat) :=
  match get_index h value with
  | some index =>
    if index < h.data.data.length then some (some (h.data.data.getD index 0)) else none
  | none => some none

/-- `Histogram::clear()` (always returns `Ok(())` in the source; only the
state transition is modelled). -/
def clear (h : Histogram) : Histogram :=
  { h with
    data.counters := h.data.counters.clear
    data.data := h.data.data.map (fun _ => 0) }

/-- `Histogram::entries()`. -/
def entries (h : Histogram) : Nat := h.data.counters.entries_total

/-- `Histogram::buckets_total()` (`u32` widened to `u64`, exact). -/
def bucketsTotal (h : Histogram) : Nat := h.properties.buckets_total

end Histogram

namespace Histogram

/-- The scan loop of `Histogram::percentile`: starting at `index`, moving
by `step`, with accumulator `acc` and target `need`.  `none` models a
panic (out-of-bounds bucket read); the fuel is chosen large enough that it
is never exhausted before a `return` or `break` of the source loop. -/
def percentileScan (h : Histogram) (need : Nat) :
    Nat → Int → Int → Nat → Option (Except String Nat)
  | 0, _, _, _ => none
  | fuel + 1, index, step, acc =>
    match (if 0 ≤ index then h.data.data.get? index.toNat else none) with
    | none => none
    | some c =>
      let acc1 := (acc + c) % U64
      if need ≤ acc1 then some (Except.ok (index_value h index.toNat))
      else
        let index1 := index + step
        if (h.bucketsTotal : Int) ≤ index1 then some (Except.error "unknown failure")
        else if index1 < 0 then some (Except.error "unknown failure")
        else percentileScan h need fuel index1 step acc1

/-- The rank preparation of `Histogram::percentile`: the clamped
`need = ceil(total * p/100)` (computed in `f64`), the complementation,
the branch-dependent start index, step, starting accumulator, and the
final clamp of `need` to at least 1. -/
def percentilePrep (h : Histogram) (p : Frac) : Nat × Int × Int × Nat :=
  let total := h.entries
  let need0 := toU64sat (Frac.ceilI (fmul (f64ofNat total) (fdivF p (Frac.ofNat 100))))
  let need1 := if need0 > total then total else need0
  let need2 := u64sub total need1
  let ascend := Frac.blt p (Frac.ofNat 50)
  let startIndex : Int := if ascend then 0 else u64toIsize (u64sub h.bucketsTotal 1)
  let step : Int := if ascend then 1 else -1
  let acc0 : Nat := if ascend then h.data.counters.missed_small else h.data.counters.missed_large
  let need3 := if ascend then u64sub total need2 else need2
  let need4 := if need3 = 0 then 1 else need3
  (need4, startIndex, step, acc0)

/-- `Histogram::percentile(p)`.  `none` models a panic inside the scan
loop; otherwise the returned `Result` is produced. -/
def percentile (h : Histogram) (p : Frac) : Option (Except String Nat) :=
  if h.entries < 1 then some (Except.error "no data")
  else if Frac.ble p (Frac.ofNat 100) && Frac.ble (Frac.ofNat 0) p then
    let prep := percentilePrep h p
    let need := prep.1
    let startIndex := prep.2.1
    let step := prep.2.2.1
    let acc0 := prep.2.2.2
    if need ≤ acc0 then
      some (Except.error (if startIndex = 0 then "underflow" else "overflow"))
    else percentileScan h need (h.bucketsTotal + 2) startIndex step acc0
  else some (Except.error "unknown failure")

/-- `Histogram::merge(&mut self, other)`: re-records `other`'s buckets
into `self` via `other`'s iterator, ignoring the per-call result.  The
iterator starts at `other`'s current cursor `data.iterator` and stops at
`buckets_total` (resetting the cursor to 0), so the buckets visited are
the indices `iterator, iterator+1, ..., buckets_total - 1`; a cursor that
is already past `buckets_total` makes `next()` read past the bucket
array, a panic (`none`), and a panic inside `record` propagates.  Only
the updated destination is returned — `other` is left with its counters
and buckets unchanged and its cursor back at 0. -/
def merge (a b : Histogram) : Option Histogram :=
  if b.properties.buckets_total < b.data.iterator then none
  else
    ((List.range b.properties.buckets_total).drop b.data.iterator).foldlM
      (fun acc i =>
        match b.data.data.get? i with
        | none => none
        | some c => (record acc (index_value b i) c).map (fun x => x.1))
      a

/-- A histogram built by `configured` followed by a sequence of `record`
calls (the only mutation path the claims quantify over). -/
def mkHist (config : HistogramConfig) (ops : List (Nat × Nat)) : Option Histogram :=
  (configured config).bind (fun h0 =>
    ops.foldlM (fun h p => (record h p.1 p.2).map (fun x => x.1)) h0)

end Histogram

namespace Histogram

/-- `get_index` reads only the geometry, so bumping a counter first (as
`record` does) cannot change it. -/
theorem get_index_counters_congr (h : Histogram) (c : HistogramCounters) (value : Nat) :
    get_index { h with data.counters := c } value = get_index h value := rfl

/-- `record` on `value = 0`: entries and `missed_small` are bumped and the
`ValueTooSmall` error is returned. -/
theorem record_small (h : Histogram) (c : Nat) :
    record h 0 c = some ({ h with
      data.counters.entries_total := satAdd64 h.data.counters.entries_total c,
      data.counters.missed_small := satAdd64 h.data.counters.missed_small c },
      Except.error "sample value too small") := rfl

/-- `record` on `value > max_value`: entries and `missed_large` are bumped
and the `ValueTooLarge` error is returned. -/
theorem record_large (h : Histogram) (value c : Nat)
    (h2 : h.config.max_value < value) :
    record h value c = some ({ h with
      data.counters.entries_total := satAdd64 h.data.counters.entries_total c,
      data.counters.missed_large := satAdd64 h.data.counters.missed_large c },
      Except.error "sample value too large") := by
  rw [record]
  rw [if_neg (by omega : ¬ value < 1), if_pos (by omega : value > h.config.max_value)]

/-- `record` on an in-range value whose bucket index is inside the array:
entries are bumped and `count` is saturating-added to that bucket. -/
theorem record_ok (h : Histogram) (value c i : Nat)
    (h1 : 1 ≤ value) (h2 : value ≤ h.config.max_value)
    (hi : get_index h value = some i) (hlen : i < h.data.data.length) :
    record h value c = some ({ h with
      data.counters.entries_total := satAdd64 h.data.counters.entries_total c,
      data.data := h.data.data.set i (satAdd64 (h.data.data.getD i 0) c) },
      Except.ok ()) := by
  rw [record]
  rw [if_neg (by omega : ¬ value < 1), if_neg (by omega : ¬ value > h.config.max_value)]
  have hi' : get_index { h with
      data.counters.entries_total := satAdd64 h.data.counters.entries_total c } value
      = some i := hi
  rw [hi']
  simp only [if_pos hlen]

/-- `record` on an in-range value whose bucket index falls outside the
array: the Rust code panics on the out-of-bounds write. -/
theorem record_oob (h : Histogram) (value c i : Nat)
    (h1 : 1 ≤ value) (h2 : value ≤ h.config.max_value)
    (hi : get_index h value = some i) (hlen : ¬ i < h.data.data.length) :
    record h value c = none := by
  rw [record]
  rw [if_neg (by omega : ¬ value < 1), if_neg (by omega : ¬ value > h.config.max_value)]
  have hi' : get_index { h with
      data.counters.entries_total := satAdd64 h.data.counters.entries_total c } value
      = some i := hi
  rw [hi']
  simp only [if_neg hlen]

/-- `get_index` always succeeds on `value ≥ 1` (both branches of the
source return `Some`). -/
theorem get_index_isSome (h : Histogram) (value : Nat) (h1 : 1 ≤ value) :
    ∃ i, get_index h value = some i := by
  rw [get_index, if_pos h1]
  by_cases hlin : value ≤ h.properties.linear_max
  · rw [if_pos hlin]
    exact ⟨value - 1, rfl⟩
  · rw [if_neg hlin]
    exact ⟨_, rfl⟩

end Histogram

namespace Frac

theorem num_nonneg_of_val (q : Frac) (hd : 0 < q.den) (hv : 0 ≤ q.val) : 0 ≤ q.num := by
  rw [val] at hv
  have hdq : (0 : ℚ) < (q.den : ℚ) := by exact_mod_cast hd
  have := (div_nonneg_iff.mp hv)
  rcases this with ⟨h1, _⟩ | ⟨h1, h2⟩
  · exact_mod_cast h1
  · have : (q.den : ℚ) = 0 := le_antisymm h2 (le_of_lt hdq) |>.symm ▸ rfl
    exact absurd this (ne_of_gt hdq)

end Frac

theorem pow2F_val (k : Nat) : (pow2F k).val = ((2 ^ k : ℕ) : ℚ) := by
  simp [pow2F, Frac.val]

theorem floor_div_nat (a b : ℕ) : ⌊(a : ℚ) / (b : ℚ)⌋ = ((a / b : ℕ) : ℤ) := by
  have h := Rat.floor_intCast_div_natCast (a : ℤ) b
  rw [← Int.ofNat_ediv] at h
  have hca : ((a : ℤ) : ℚ) = (a : ℚ) := by push_cast; rfl
  rw [hca] at h
  exact h

namespace Histogram

/-- A configuration with sane geometry: the `u32` power and the bucket
count do not wrap, the value range is a nonempty subrange of `u64`, and
`buckets_inner * max_value` stays below `2^53`, which keeps every `f64`
computation of `get_index` exact. -/
def GoodConfig (c : HistogramConfig) : Prop :=
  1 ≤ c.radix ^ c.precision ∧ c.radix ^ c.precision < U32 ∧
    1 ≤ c.max_value ∧ c.max_value < U64 ∧
    bucketsInnerOf c * c.max_value ≤ 2 ^ 53 ∧
    bucketsInnerOf c * bucketsOuterOf c + linearMaxOf c < U32

instance (c : HistogramConfig) : Decidable (GoodConfig c) := by
  unfold GoodConfig
  infer_instance

/-- What `configured` builds, when it succeeds. -/
theorem configured_eq (c : HistogramConfig) (h : Histogram) (hc : configured c = some h) :
    h.config = c ∧
    h.properties.buckets_inner = bucketsInnerOf c ∧
    h.properties.buckets_outer = bucketsOuterOf c ∧
    h.properties.buckets_total = bucketsTotalOf c ∧
    h.properties.linear_max = linearMaxOf c ∧
    h.properties.linear_power = linearPowerOf c ∧
    h.data.data = List.replicate (bucketsTotalOf c) 0 ∧
    h.data.counters = HistogramCounters.new ∧
    h.data.iterator = 0 := by
  rw [configured] at hc
  split_ifs at hc with hmem
  all_goals try exact Option.noConfusion hc
  injection hc with hh
  subst hh
  exact ⟨rfl, rfl, rfl, rfl, rfl, rfl, rfl, rfl, rfl⟩

/-- `get_index` in the linear region. -/
theorem get_index_linear (h : Histogram) (value : Nat) (h1 : 1 ≤ value)
    (h2 : value ≤ h.properties.linear_max) : get_index h value = some (value - 1) := by
  rw [get_index, if_pos h1, if_pos h2]

end Histogram

/-- The `f64` computation of the sub-bucket index in `get_index` is exact
whenever `buckets_inner * value ≤ 2^53`: it equals the integer formula
`⌊buckets_inner * (value - 2^outer) / 2^outer⌋`. -/
theorem float_inner_exact (B value o : Nat)
    (hB1 : 1 ≤ B) (hB32 : B < 2 ^ 32)
    (ho1 : 2 ^ o ≤ value) (ho2 : value < 2 ^ (o + 1)) (ho63 : o ≤ 63)
    (h53 : B * value ≤ 2 ^ 53) :
    toU32sat (Frac.floorI
        (fdivF (fmul (f64ofNat B) (fsub (f64ofNat value) (pow2F o))) (pow2F o)))
      = B * (value - 2 ^ o) / 2 ^ o := by
  have hv53 : value ≤ 2 ^ 53 := by
    calc value ≤ B * value := Nat.le_mul_of_pos_left value (by omega)
      _ ≤ 2 ^ 53 := h53
  have hB53 : B ≤ 2 ^ 53 := by
    calc B ≤ B * value := Nat.le_mul_of_pos_right B (by omega)
      _ ≤ 2 ^ 53 := h53
  -- step 1: `value as f64` is exact
  obtain ⟨s1v, s1n, s1d, s1nb, s1db⟩ :
      (f64ofNat value).val = (value : ℚ) ∧ 0 ≤ (f64ofNat value).num ∧
        0 < (f64ofNat value).den ∧ (f64ofNat value).num.toNat ≤ 2 ^ 306 ∧
        (f64ofNat value).den ≤ 2 ^ 306 :=
    Frac.roundF64_natval (Frac.ofNat value) value
      (by exact Int.natCast_nonneg value) (by norm_num [Frac.ofNat])
      (by simpa [Frac.ofNat] using lt_of_le_of_lt hv53 (by norm_num : (2:ℕ) ^ 53 < 2 ^ 4096))
      (by norm_num [Frac.ofNat]) hv53 (Frac.val_ofNat value)
  -- step 2: `buckets_inner as f64` is exact
  obtain ⟨s2v, s2n, s2d, s2nb, s2db⟩ :
      (f64ofNat B).val = (B : ℚ) ∧ 0 ≤ (f64ofNat B).num ∧
        0 < (f64ofNat B).den ∧ (f64ofNat B).num.toNat ≤ 2 ^ 306 ∧
        (f64ofNat B).den ≤ 2 ^ 306 :=
    Frac.roundF64_natval (Frac.ofNat B) B
      (by exact Int.natCast_nonneg B) (by norm_num [Frac.ofNat])
      (by simpa [Frac.ofNat] using lt_of_le_of_lt hB53 (by norm_num : (2:ℕ) ^ 53 < 2 ^ 4096))
      (by norm_num [Frac.ofNat]) hB53 (Frac.val_ofNat B)
  set vf : Frac := f64ofNat value with hvf
  set Bf : Frac := f64ofNat B with hBf
  -- step 3: the exact difference pair
  set r0 : Frac := Frac.sub vf (pow2F o) with hr0
  have hr0num : r0.num = vf.num * 1 - (2 ^ o : ℕ) * (vf.den : Int) := rfl
  have hr0den : r0.den = vf.den * 1 := rfl
  have hr0val : r0.val = ((value - 2 ^ o : ℕ) : ℚ) := by
    rw [hr0, Frac.val_sub vf (pow2F o) (by omega) (by norm_num [pow2F]), s1v, pow2F_val]
    push_cast [ho1]
    ring
  have hr0dpos : 0 < r0.den := by rw [hr0den]; omega
  have hr0nn : 0 ≤ r0.num := by
    refine Frac.num_nonneg_of_val r0 hr0dpos ?_
    rw [hr0val]
    positivity
  have hr0nb : r0.num.toNat < 2 ^ 4096 := by
    have hle : r0.num ≤ vf.num := by
      rw [hr0num]
      have : (0 : Int) ≤ (2 ^ o : ℕ) * (vf.den : Int) := by positivity
      omega
    have := Int.toNat_le_toNat hle
    calc r0.num.toNat ≤ vf.num.toNat := this
      _ ≤ 2 ^ 306 := s1nb
      _ < 2 ^ 4096 := by norm_num
  have hr0db : r0.den < 2 ^ 4096 := by
    rw [hr0den]
    calc vf.den * 1 = vf.den := by ring
      _ ≤ 2 ^ 306 := s1db
      _ < 2 ^ 4096 := by norm_num
  -- rounding the difference is exact
  obtain ⟨s3v, s3n, s3d, s3nb, s3db⟩ := Frac.roundF64_natval r0 (value - 2 ^ o)
    hr0nn hr0dpos hr0nb hr0db (by omega) hr0val
  set rem : Frac := Frac.roundF64 r0 with hrem
  -- step 4: the exact product pair
  set p0 : Frac := Frac.mul Bf rem with hp0
  have hp0num : p0.num = Bf.num * rem.num := rfl
  have hp0den : p0.den = Bf.den * rem.den := rfl
  have hp0val : p0.val = ((B * (value - 2 ^ o) : ℕ) : ℚ) := by
    rw [hp0, Frac.val_mul Bf rem (by omega) (by omega), s2v, s3v]
    push_cast
    ring
  have hp0dpos : 0 < p0.den := by rw [hp0den]; exact Nat.mul_pos (by omega) (by omega)
  have hp0nn : 0 ≤ p0.num := by rw [hp0num]; exact mul_nonneg s2n s3n
  have hp0nb : p0.num.toNat < 2 ^ 4096 := by
    have h1 : p0.num.toNat = Bf.num.toNat * rem.num.toNat := by
      rcases Int.eq_ofNat_of_zero_le s2n with ⟨a, ha⟩
      rcases Int.eq_ofNat_of_zero_le s3n with ⟨b, hb⟩
      rw [hp0num, ha, hb, ← Nat.cast_mul, Int.toNat_natCast, Int.toNat_natCast,
        Int.toNat_natCast]
    rw [h1]
    calc Bf.num.toNat * rem.num.toNat ≤ 2 ^ 306 * 2 ^ 306 := Nat.mul_le_mul s2nb s3nb
      _ < 2 ^ 4096 := by norm_num [← Nat.pow_add]
  have hp0db : p0.den < 2 ^ 4096 := by
    rw [hp0den]
    calc Bf.den * rem.den ≤ 2 ^ 306 * 2 ^ 306 := Nat.mul_le_mul s2db s3db
      _ < 2 ^ 4096 := by norm_num [← Nat.pow_add]
  have hP53 : B * (value - 2 ^ o) ≤ 2 ^ 53 := by
    calc B * (value - 2 ^ o) ≤ B * value := Nat.mul_le_mul_left B (by omega)
      _ ≤ 2 ^ 53 := h53
  obtain ⟨s4v, s4n, s4d, s4nb, s4db⟩ := Frac.roundF64_natval p0 (B * (value - 2 ^ o))
    hp0nn hp0dpos hp0nb hp0db hP53 hp0val
  set prod : Frac := Frac.roundF64 p0 with hprod
  -- step 5: the exact quotient pair
  set q0 : Frac := Frac.div prod (pow2F o) with hq0
  have hq0num : q0.num = prod.num * 1 := rfl
  have hq0den : q0.den = prod.den * ((2 ^ o : ℕ) : Int).toNat := rfl
  have hq0val : q0.val = ((B * (value - 2 ^ o) : ℕ) : ℚ) / ((2 ^ o : ℕ) : ℚ) := by
    rw [hq0, Frac.val_div prod (pow2F o) (by omega) (by norm_num [pow2F])
      (by norm_num [pow2F] : (0 : Int) < (pow2F o).num), s4v, pow2F_val]
  have hq0dpos : 0 < q0.den := by
    rw [hq0den]
    refine Nat.mul_pos (by omega) ?_
    rw [Int.toNat_natCast]
    exact Nat.pos_pow_of_pos _ (by norm_num)
  have hq0nn : 0 ≤ q0.num := by rw [hq0num]; omega
  have hq0nb : q0.num.toNat < 2 ^ 4096 := by
    rw [hq0num]
    calc (prod.num * 1).toNat = prod.num.toNat := by rw [mul_one]
      _ ≤ 2 ^ 306 := s4nb
      _ < 2 ^ 4096 := by norm_num
  have hq0db : q0.den < 2 ^ 4096 := by
    rw [hq0den]
    have h1 : ((2 ^ o : ℕ) : Int).toNat = 2 ^ o := Int.toNat_natCast (2 ^ o)
    rw [h1]
    calc prod.den * 2 ^ o ≤ 2 ^ 306 * 2 ^ 63 :=
          Nat.mul_le_mul s4db (Nat.pow_le_pow_right (by norm_num) ho63)
      _ < 2 ^ 4096 := by norm_num [← Nat.pow_add]
  -- rounding the quotient is exact: its value is (B * remain) * 2^(-o)
  have hq0dy : q0.val = ((B * (value - 2 ^ o) : ℕ) : ℚ) * (2 : ℚ) ^ (-(o : ℤ)) := by
    rw [hq0val, qpow_cast, zpow_neg, div_eq_mul_inv]
  obtain ⟨s5v, s5n, s5d, s5nb, s5db⟩ := Frac.roundF64_exact q0 (B * (value - 2 ^ o)) (-(o : ℤ))
    hq0nn hq0dpos hq0nb hq0db hP53 (by simpa using ho63.trans (by norm_num)) hq0dy
  set quot : Frac := Frac.roundF64 q0 with hquot
  -- step 6: floor and cast
  have hfloor : Frac.floorI quot = ((B * (value - 2 ^ o) / 2 ^ o : ℕ) : ℤ) := by
    rw [Frac.floorI_eq, s5v, hq0val, floor_div_nat]
  rw [show fdivF (fmul (f64ofNat B) (fsub (f64ofNat value) (pow2F o))) (pow2F o) = quot from rfl]
  rw [hfloor]
  have hlt : B * (value - 2 ^ o) / 2 ^ o < B := by
    rw [Nat.div_lt_iff_lt_mul (by positivity)]
    have h1 : value - 2 ^ o < 2 ^ o := by
      have := ho2
      rw [pow_succ] at this
      omega
    exact (Nat.mul_lt_mul_left (by omega : 0 < B)).mpr h1
  rw [toU32sat, Int.toNat_natCast]
  have hU : U32 = 2 ^ 32 := rfl
  omega

namespace Histogram

theorem u32sub_eq (a b : Nat) (hba : b ≤ a) (ha : a < U32) : u32sub a b = a - b := by
  rw [u32sub, show U32 = 2 ^ 32 from rfl]
  rw [show U32 = 2 ^ 32 from rfl] at ha
  omega

theorem bl_mono (a b : Nat) (hab : a ≤ b) (hb : b < 2 ^ 4096) : bl a ≤ bl b := by
  rcases Nat.eq_zero_or_pos a with h0 | h0
  · simp [h0, bl_zero]
  · obtain ⟨hlo, hhi⟩ := bl_spec a (by omega) (by omega)
    have h1 := le_bl_of_le b (bl a - 1) (le_trans hlo hab) hb
    have h2 := bl_pos a (by omega) (by omega)
    omega

/-- Every histogram produced by `configured` has `linear_power ≤ 32` and a
nonzero `linear_max` when the inner bucket count does not vanish. -/
theorem linearPowerOf_le (c : HistogramConfig) : linearPowerOf c ≤ 32 := by
  have h1 : bucketsInnerOf c < 2 ^ 32 := by
    have : bucketsInnerOf c < U32 := Nat.mod_lt _ (by norm_num [U32])
    simpa [U32] using this
  exact bl_le_of_lt _ 32 h1 (by norm_num)

/-- `get_index` on a `configured` histogram, in the logarithmic region,
under a good configuration: it returns exactly the integer log-linear
formula of the specification, and the index is strictly below
`buckets_total`. -/
theorem get_index_log_exact (c : HistogramConfig) (h : Histogram)
    (hg : GoodConfig c)
    (hpm : h.properties.linear_max = linearMaxOf c)
    (hpi : h.properties.buckets_inner = bucketsInnerOf c)
    (value : Nat) (hv1 : linearMaxOf c < value) (hv2 : value ≤ c.max_value) :
    get_index h value =
      some (linearMaxOf c +
        bucketsInnerOf c * (bl value - 1 - linearPowerOf c) +
        bucketsInnerOf c * (value - 2 ^ (bl value - 1)) / 2 ^ (bl value - 1)) ∧
    linearMaxOf c + bucketsInnerOf c * (bl value - 1 - linearPowerOf c) +
        bucketsInnerOf c * (value - 2 ^ (bl value - 1)) / 2 ^ (bl value - 1)
      < bucketsTotalOf c := by
  obtain ⟨hB1', hB2', hmv1, hmv2, h53, htot⟩ := hg
  have hU32 : U32 = 2 ^ 32 := rfl
  have hU64 : U64 = 2 ^ 64 := rfl
  have hBeq : bucketsInnerOf c = c.radix ^ c.precision := by
    rw [bucketsInnerOf]
    exact Nat.mod_eq_of_lt hB2'
  have hB1 : 1 ≤ bucketsInnerOf c := by omega
  have hB32 : bucketsInnerOf c < 2 ^ 32 := by rw [hBeq, ← hU32]; exact hB2'
  have hlp32 : linearPowerOf c ≤ 32 := linearPowerOf_le c
  have hlp1 : 1 ≤ linearPowerOf c := by
    rw [linearPowerOf]
    exact bl_pos _ (lt_trans hB32 (by norm_num)) (by omega)
  have hlm : linearMaxOf c = 2 ^ linearPowerOf c - 1 := rfl
  have hlm32 : linearMaxOf c < U32 := by
    rw [hlm, hU32]
    have : (2:ℕ) ^ linearPowerOf c ≤ 2 ^ 32 := Nat.pow_le_pow_right (by norm_num) hlp32
    omega
  have hlm1 : 1 ≤ linearMaxOf c := by
    rw [hlm]
    have : (2:ℕ) ^ 1 ≤ 2 ^ linearPowerOf c := Nat.pow_le_pow_right (by norm_num) hlp1
    omega
  have hvpos : 1 ≤ value := by omega
  have hv64 : value < 2 ^ 64 := by
    have := hmv2
    rw [hU64] at this
    omega
  have hv4096 : value < 2 ^ 4096 := lt_trans hv64 (by norm_num)
  have hv53 : value ≤ 2 ^ 53 := by
    have h1 : value ≤ bucketsInnerOf c * value := Nat.le_mul_of_pos_left value (by omega)
    have h2 : bucketsInnerOf c * value ≤ bucketsInnerOf c * c.max_value :=
      Nat.mul_le_mul_left _ hv2
    omega
  -- the outer exponent
  obtain ⟨hvlo, hvhi⟩ := bl_spec value hv4096 (by omega)
  have hblv1 : 1 ≤ bl value := bl_pos value hv4096 (by omega)
  have hblv64 : bl value ≤ 64 := bl_le_of_lt value 64 hv64 (by norm_num)
  have ho1 : 2 ^ (bl value - 1) ≤ value := hvlo
  have ho2 : value < 2 ^ (bl value - 1 + 1) := by
    have : bl value - 1 + 1 = bl value := by omega
    rw [this]
    exact hvhi
  have holp : linearPowerOf c ≤ bl value - 1 := by
    have h1 : 2 ^ linearPowerOf c ≤ value := by
      rw [hlm] at hv1
      have h2 : (1:ℕ) ≤ 2 ^ linearPowerOf c := Nat.one_le_two_pow
      omega
    have := le_bl_of_le value (linearPowerOf c) h1 hv4096
    omega
  -- the bit length of linear_max is linear_power
  have hbllm : bl (linearMaxOf c) = linearPowerOf c := by
    have hk : bl (linearMaxOf c) = (linearPowerOf c - 1) + 1 := by
      rw [bl_eq_iff _ _ (lt_trans hlm32 (by rw [hU32]; norm_num)) (by omega)]
      constructor
      · rw [hlm]
        have hsplit : (2:ℕ) ^ linearPowerOf c = 2 ^ (linearPowerOf c - 1) * 2 := by
          rw [← Nat.pow_succ]
          congr 1
          omega
        have h2 : (1:ℕ) ≤ 2 ^ (linearPowerOf c - 1) := Nat.one_le_two_pow
        omega
      · rw [hlm]
        have : linearPowerOf c - 1 + 1 = linearPowerOf c := by omega
        rw [this]
        omega
    omega
  -- the float part
  have hfloat := float_inner_exact (bucketsInnerOf c) value (bl value - 1) hB1 hB32 ho1 ho2
    (by omega)
    (le_trans (Nat.mul_le_mul_left _ hv2) h53)
  -- unfold get_index
  simp only [get_index]
  rw [if_pos hvpos, if_neg (by rw [hpm]; omega : ¬ value ≤ h.properties.linear_max)]
  rw [hpm, hpi]
  have hmod1 : linearMaxOf c % U32 = linearMaxOf c := Nat.mod_eq_of_lt hlm32
  rw [hmod1, hbllm, hfloat]
  rw [u32sub_eq (bl value - 1) (linearPowerOf c) holp (by rw [hU32]; omega)]
  -- the final index and its bound
  have hinner_lt : bucketsInnerOf c * (value - 2 ^ (bl value - 1)) / 2 ^ (bl value - 1)
      < bucketsInnerOf c := by
    rw [Nat.div_lt_iff_lt_mul (Nat.pos_pow_of_pos _ (by norm_num))]
    have h1 : value - 2 ^ (bl value - 1) < 2 ^ (bl value - 1) := by
      have := ho2
      rw [pow_succ] at this
      omega
    exact (Nat.mul_lt_mul_left (by omega : 0 < bucketsInnerOf c)).mpr h1
  have hmv4096 : c.max_value < 2 ^ 4096 := by
    rw [hU64] at hmv2
    exact lt_trans hmv2 (by norm_num)
  have hmvbl : bl value ≤ bl c.max_value := bl_mono value c.max_value hv2 hmv4096
  have hgt : bl c.max_value > linearPowerOf c := by omega
  have hbout_eq : bucketsOuterOf c = bl c.max_value - linearPowerOf c := by
    rw [bucketsOuterOf, if_pos hgt]
  have houter_le : bl value - 1 - linearPowerOf c ≤ bucketsOuterOf c - 1 := by
    rw [hbout_eq]
    omega
  have hbout1 : 1 ≤ bucketsOuterOf c := by
    rw [hbout_eq]
    omega
  have hidx_le : linearMaxOf c + bucketsInnerOf c * (bl value - 1 - linearPowerOf c) +
      bucketsInnerOf c * (value - 2 ^ (bl value - 1)) / 2 ^ (bl value - 1)
        ≤ bucketsInnerOf c * bucketsOuterOf c + linearMaxOf c - 1 := by
    have h1 : bucketsInnerOf c * (bl value - 1 - linearPowerOf c)
        ≤ bucketsInnerOf c * (bucketsOuterOf c - 1) := Nat.mul_le_mul_left _ houter_le
    have h2 : bucketsInnerOf c * (bucketsOuterOf c - 1)
        = bucketsInnerOf c * bucketsOuterOf c - bucketsInnerOf c := by
      rw [Nat.mul_sub_one]
    have h3 : bucketsInnerOf c ≤ bucketsInnerOf c * bucketsOuterOf c :=
      Nat.le_mul_of_pos_right _ (by omega)
    omega
  have htotal_eq : bucketsTotalOf c = bucketsInnerOf c * bucketsOuterOf c + linearMaxOf c := by
    rw [bucketsTotalOf]
    exact Nat.mod_eq_of_lt htot
  constructor
  · congr 1
    rw [Nat.mod_eq_of_lt]
    rw [hU32]
    rw [hU32] at htot
    omega
  · rw [htotal_eq]
    omega

end Histogram

theorem satAdd64_eq (a b : Nat) (h : a + b < 2 ^ 64) : satAdd64 a b = a + b := by
  rw [satAdd64, show U64 = 2 ^ 64 from rfl]
  omega

theorem get?_getD (l : List Nat) : ∀ i : Nat, i < l.length → l.get? i = some (l.getD i 0) := by
  induction l with
  | nil => intro i h; simp at h
  | cons a t ih =>
    intro i h
    cases i with
    | zero => rfl
    | succ j =>
      have hj : j < t.length := by simpa using h
      simpa using ih j hj

theorem sum_set_getD (l : List Nat) : ∀ i v : Nat, i < l.length →
    (l.set i v).sum + l.getD i 0 = l.sum + v := by
  induction l with
  | nil => intro i v h; simp at h
  | cons a t ih =>
    intro i v h
    cases i with
    | zero => simp [List.set]; omega
    | succ j =>
      have hj : j < t.length := by simpa using h
      have hrec := ih j v hj
      show (a :: t.set j v).sum + t.getD j 0 = (a :: t).sum + v
      rw [List.sum_cons, List.sum_cons]
      omega

theorem getD_map_zero (l : List Nat) : ∀ i : Nat, i < l.length →
    (l.map (fun _ => 0)).getD i 0 = 0 := by
  induction l with
  | nil => intro i h; simp at h
  | cons a t ih =>
    intro i h
    cases i with
    | zero => rfl
    | succ j =>
      have hj : j < t.length := by simpa using h
      simpa using ih j hj

theorem range_map_getD_sum (l : List Nat) :
    ((List.range l.length).map (fun i => l.getD i 0)).sum = l.sum := by
  induction l with
  | nil => simp
  | cons a t ih =>
    rw [List.length_cons, List.range_succ_eq_map, List.map_cons, List.map_map]
    have hcomp : ((fun i => (a :: t).getD i 0) ∘ Nat.succ) = fun i => t.getD i 0 := by
      funext i
      rfl
    rw [hcomp, List.sum_cons, ih]
    rfl

namespace Histogram

/-- `index_value` in the linear region (the bucket's representative is
`index + 1`). -/
theorem index_value_linear (h : Histogram) (i : Nat) (hi : i < h.properties.linear_max)
    (hmax : h.properties.linear_max < U32) : index_value h i = i + 1 := by
  have hiU : i < U32 := lt_trans hi hmax
  simp only [index_value]
  rw [Nat.mod_eq_of_lt hiU, Nat.mod_eq_of_lt hmax, if_pos hi, Nat.mod_eq_of_lt (by omega)]

/-- For a good configuration, `get_index` succeeds on every in-range value
with an index strictly below `buckets_total`. -/
theorem get_index_lt_total (c : HistogramConfig) (h : Histogram)
    (hg : GoodConfig c)
    (hpm : h.properties.linear_max = linearMaxOf c)
    (hpi : h.properties.buckets_inner = bucketsInnerOf c)
    (value : Nat) (h1 : 1 ≤ value) (h2 : value ≤ c.max_value) :
    ∃ i, get_index h value = some i ∧ i < bucketsTotalOf c := by
  obtain ⟨hB1', hB2', hmv1, hmv2, h53, htot⟩ := hg
  have hBeq : bucketsInnerOf c = c.radix ^ c.precision := Nat.mod_eq_of_lt hB2'
  have hB1 : 1 ≤ bucketsInnerOf c := by omega
  have hlp1 : 1 ≤ linearPowerOf c := by
    rw [linearPowerOf]
    refine bl_pos _ ?_ (by omega)
    have : bucketsInnerOf c < U32 := Nat.mod_lt _ (by norm_num [U32])
    calc bucketsInnerOf c < U32 := this
      _ < 2 ^ 4096 := by norm_num [U32]
  have hlm1 : 1 ≤ linearMaxOf c := by
    rw [linearMaxOf]
    have : (2:ℕ) ^ 1 ≤ 2 ^ linearPowerOf c := Nat.pow_le_pow_right (by norm_num) hlp1
    omega
  have htotal_eq : bucketsTotalOf c = bucketsInnerOf c * bucketsOuterOf c + linearMaxOf c := by
    rw [bucketsTotalOf]
    exact Nat.mod_eq_of_lt htot
  by_cases hlin : value ≤ linearMaxOf c
  · refine ⟨value - 1, ?_, ?_⟩
    · rw [get_index_linear h value h1 (by rw [hpm]; omega)]
    · rw [htotal_eq]
      omega
  · obtain ⟨heq, hlt⟩ := get_index_log_exact c h
      ⟨hB1', hB2', hmv1, hmv2, h53, htot⟩ hpm hpi value (by omega) h2
    exact ⟨_, heq, hlt⟩

/-- The state invariant preserved by `record`: the configuration and the
geometry fields never change, and the bucket array keeps its length. -/
def Inv (c : HistogramConfig) (h : Histogram) : Prop :=
  h.config = c ∧ h.properties.buckets_inner = bucketsInnerOf c ∧
    h.properties.buckets_outer = bucketsOuterOf c ∧
    h.properties.buckets_total = bucketsTotalOf c ∧
    h.properties.linear_max = linearMaxOf c ∧
    h.properties.linear_power = linearPowerOf c ∧
    h.data.data.length = bucketsTotalOf c

theorem Inv_of_configured (c : HistogramConfig) (h : Histogram)
    (hc : configured c = some h) : Inv c h := by
  obtain ⟨h1, h2, h3, h4, h5, h6, h7, h8, h9⟩ := configured_eq c h hc
  exact ⟨h1, h2, h3, h4, h5, h6, by rw [h7, List.length_replicate]⟩

end Histogram

namespace Histogram

/-- Under the geometry invariant and a good configuration, `record` never
panics: whatever the value, it returns a state, preserves the invariant,
saturating-adds `count` to `entries_total`, and leaves the configuration
and properties untouched. -/
theorem record_total (c : HistogramConfig) (h : Histogram)
    (hg : GoodConfig c) (hInv : Inv c h) (value cnt : Nat) :
    ∃ h' r, record h value cnt = some (h', r) ∧ Inv c h' ∧
      h'.data.counters.entries_total = satAdd64 h.data.counters.entries_total cnt ∧
      h'.config = h.config ∧ h'.properties = h.properties := by
  obtain ⟨hc, hbi, hbo, hbt, hlm, hlp, hlen⟩ := hInv
  by_cases hv0 : value < 1
  · have hz : value = 0 := by omega
    subst hz
    exact ⟨_, _, record_small h cnt, ⟨hc, hbi, hbo, hbt, hlm, hlp, hlen⟩, rfl, rfl, rfl⟩
  · by_cases hvm : value > c.max_value
    · exact ⟨_, _, record_large h value cnt (by rw [hc]; omega),
        ⟨hc, hbi, hbo, hbt, hlm, hlp, hlen⟩, rfl, rfl, rfl⟩
    · obtain ⟨i, hi, hlt⟩ := get_index_lt_total c h hg hlm hbi value (by omega) (by omega)
      refine ⟨_, _, record_ok h value cnt i (by omega) (by rw [hc]; omega) hi
        (by rw [hlen]; exact hlt), ⟨hc, hbi, hbo, hbt, hlm, hlp, ?_⟩, rfl, rfl, rfl⟩
      rw [List.length_set]
      exact hlen

/-- Sum of a one-longer prefix. -/
theorem take_succ_sum (l : List Nat) : ∀ n : Nat, n < l.length →
    (l.take (n + 1)).sum = (l.take n).sum + l.getD n 0 := by
  induction l with
  | nil => intro n hn; simp at hn
  | cons a t ih =>
    intro n hn
    cases n with
    | zero => simp
    | succ m =>
      have hm : m < t.length := by simpa using hn
      show ((a :: t).take (m + 2)).sum = ((a :: t).take (m + 1)).sum + (a :: t).getD (m + 1) 0
      rw [List.take_succ_cons, List.take_succ_cons, List.sum_cons, List.sum_cons]
      have hg2 : (a :: t).getD (m + 1) 0 = t.getD m 0 := rfl
      rw [hg2, ih m hm]
      omega

/-- Every entry of a list of naturals is at most the sum. -/
theorem getD_le_sum (l : List Nat) : ∀ n : Nat, l.getD n 0 ≤ l.sum := by
  induction l with
  | nil => intro n; cases n <;> rfl
  | cons a t ih =>
    intro n
    cases n with
    | zero =>
      show a ≤ (a :: t).sum
      rw [List.sum_cons]
      omega
    | succ m =>
      show t.getD m 0 ≤ (a :: t).sum
      rw [List.sum_cons]
      have := ih m
      omega

end Histogram

namespace Histogram

/-- A fold of in-range `record` calls (the mutation model of the claims):
it never panics, preserves the invariant, adds the total recorded count to
`entries_total` and to the bucket sum, and leaves every `missed` counter
unchanged — provided neither running total can overflow `u64`. -/
theorem recFold_ok (c : HistogramConfig) (hg : GoodConfig c) :
    ∀ (ops : List (Nat × Nat)) (h : Histogram), Inv c h →
    (∀ p ∈ ops, 1 ≤ p.1 ∧ p.1 ≤ c.max_value) →
    h.data.counters.entries_total + (ops.map Prod.snd).sum < 2 ^ 64 →
    h.data.data.sum + (ops.map Prod.snd).sum < 2 ^ 64 →
    ∃ h', ops.foldlM (fun h p => (record h p.1 p.2).map (fun x => x.1)) h = some h' ∧
      Inv c h' ∧
      h'.data.counters.entries_total
        = h.data.counters.entries_total + (ops.map Prod.snd).sum ∧
      h'.data.data.sum = h.data.data.sum + (ops.map Prod.snd).sum ∧
      h'.data.counters.missed_small = h.data.counters.missed_small ∧
      h'.data.counters.missed_large = h.data.counters.missed_large ∧
      h'.data.counters.missed_unknown = h.data.counters.missed_unknown ∧
      h'.data.iterator = h.data.iterator := by
  intro ops
  induction ops with
  | nil =>
    intro h hInv _ _ _
    exact ⟨h, rfl, hInv, by simp, by simp, rfl, rfl, rfl, rfl⟩
  | cons p t ih =>
    intro h hInv hran hov1 hov2
    obtain ⟨hp1, hp2⟩ := hran p (by simp)
    obtain ⟨hc, hbi, hbo, hbt, hlm, hlp, hlen⟩ := hInv
    obtain ⟨i, hi, hlt⟩ := get_index_lt_total c h hg hlm hbi p.1 hp1 hp2
    have hilen : i < h.data.data.length := by rw [hlen]; exact hlt
    have hrec := record_ok h p.1 p.2 i hp1 (by rw [hc]; exact hp2) hi hilen
    have hmap : ((p :: t).map Prod.snd).sum = p.2 + (t.map Prod.snd).sum := by
      rw [List.map_cons, List.sum_cons]
    have hgd : h.data.data.getD i 0 ≤ h.data.data.sum := getD_le_sum h.data.data i
    have hbsat : satAdd64 (h.data.data.getD i 0) p.2 = h.data.data.getD i 0 + p.2 :=
      satAdd64_eq _ _ (by rw [hmap] at hov2; omega)
    have hesat : satAdd64 h.data.counters.entries_total p.2
        = h.data.counters.entries_total + p.2 :=
      satAdd64_eq _ _ (by rw [hmap] at hov1; omega)
    have hsum : (h.data.data.set i (satAdd64 (h.data.data.getD i 0) p.2)).sum
        = h.data.data.sum + p.2 := by
      rw [hbsat]
      have hs := sum_set_getD h.data.data i (h.data.data.getD i 0 + p.2) hilen
      omega
    obtain ⟨h', hfold, hInv', hE', hS', hm1, hm2, hm3, hm4⟩ := ih
      { h with
        data.counters.entries_total := satAdd64 h.data.counters.entries_total p.2,
        data.data := h.data.data.set i (satAdd64 (h.data.data.getD i 0) p.2) }
      ⟨hc, hbi, hbo, hbt, hlm, hlp, by rw [List.length_set]; exact hlen⟩
      (fun q hq => hran q (by simp [hq]))
      (by show satAdd64 h.data.counters.entries_total p.2
            + (t.map Prod.snd).sum < 2 ^ 64
          rw [hesat]
          rw [hmap] at hov1
          omega)
      (by show (h.data.data.set i (satAdd64 (h.data.data.getD i 0) p.2)).sum
            + (t.map Prod.snd).sum < 2 ^ 64
          rw [hsum]
          rw [hmap] at hov2
          omega)
    refine ⟨h', ?_, hInv', ?_, ?_, ?_, ?_, ?_, ?_⟩
    · show ((record h p.1 p.2).map (fun x => x.1)).bind
        (fun h1 => t.foldlM (fun h p => (record h p.1 p.2).map (fun x => x.1)) h1) = some h'
      rw [hrec]
      exact hfold
    · rw [hE', hmap]
      show satAdd64 h.data.counters.entries_total p.2 + _ = _
      rw [hesat]
      omega
    · rw [hS', hmap]
      show (h.data.data.set i (satAdd64 (h.data.data.getD i 0) p.2)).sum + _ = _
      rw [hsum]
      omega
    · exact hm1
    · exact hm2
    · exact hm3
    · exact hm4

end Histogram

namespace Histogram

/-- The fold inside `merge`, restricted to the first `n` buckets of the
source: under the invariant on the destination it never panics, keeps the
invariant, and accumulates the source's bucket prefix into
`entries_total` (exactly, when the running total fits in `u64`). -/
theorem merge_fold (c : HistogramConfig) (hg : GoodConfig c) (b : Histogram) :
    ∀ (n : Nat) (a : Histogram), Inv c a →
    n ≤ b.data.data.length →
    a.data.counters.entries_total + (b.data.data.take n).sum < 2 ^ 64 →
    ∃ m, (List.range n).foldlM
        (fun acc i =>
          match b.data.data.get? i with
          | none => none
          | some cnt => (record acc (index_value b i) cnt).map (fun x => x.1)) a = some m ∧
      Inv c m ∧
      m.data.counters.entries_total
        = a.data.counters.entries_total + (b.data.data.take n).sum := by
  intro n
  induction n with
  | zero =>
    intro a hInv _ _
    exact ⟨a, rfl, hInv, by simp⟩
  | succ k ih =>
    intro a hInv hn hov
    have hkl : k < b.data.data.length := by omega
    have hts := take_succ_sum b.data.data k hkl
    obtain ⟨m, hfold, hInvm, hEm⟩ := ih a hInv (by omega) (by rw [hts] at hov; omega)
    obtain ⟨m', r, hrec, hInv', hE', _, _⟩ :=
      record_total c m hg hInvm (index_value b k) (b.data.data.getD k 0)
    refine ⟨m', ?_, hInv', ?_⟩
    · rw [List.range_succ, List.foldlM_append, hfold]
      simp only [List.foldlM_cons, List.foldlM_nil, Option.pure_def,
        Option.bind_eq_bind, Option.some_bind]
      rw [get?_getD b.data.data k hkl]
      show ((record m (index_value b k) (b.data.data.getD k 0)).map (fun x => x.1)).bind
        some = some m'
      rw [hrec]
      rfl
    · have hb64 : m.data.counters.entries_total + b.data.data.getD k 0 < 2 ^ 64 := by
        rw [hEm]
        rw [hts] at hov
        omega
      rw [hE', satAdd64_eq _ _ hb64, hEm, hts]
      omega

end Histogram

namespace Histogram

/-- Characterisation of a histogram built by `configured` followed by
in-range `record` calls whose total count fits in `u64`: the invariant
holds, `entries_total` and the bucket sum both equal the total recorded
count, and no `missed` counter was touched. -/
theorem mkHist_inv (c : HistogramConfig) (ops : List (Nat × Nat)) (a : Histogram)
    (hg : GoodConfig c) (ha : mkHist c ops = some a)
    (hran : ∀ p ∈ ops, 1 ≤ p.1 ∧ p.1 ≤ c.max_value)
    (hov : (ops.map Prod.snd).sum < 2 ^ 64) :
    Inv c a ∧ a.data.counters.entries_total = (ops.map Prod.snd).sum ∧
      a.data.data.sum = (ops.map Prod.snd).sum ∧
      a.data.counters.missed_small = 0 ∧ a.data.counters.missed_large = 0 ∧
      a.data.counters.missed_unknown = 0 ∧
      a.data.iterator = 0 := by
  rw [mkHist] at ha
  obtain ⟨h0, hc0, hfold⟩ := Option.bind_eq_some.mp ha
  obtain ⟨hcfg, hbi, hbo, hbt, hlm, hlp, hdata, hcnt, hit0⟩ := configured_eq c h0 hc0
  have hE0 : h0.data.counters.entries_total = 0 := by rw [hcnt]; rfl
  have hS0 : h0.data.data.sum = 0 := by
    rw [hdata]
    simp [List.sum_replicate]
  obtain ⟨h', hfold', hInv', hE', hS', hm1, hm2, hm3, hm4⟩ :=
    recFold_ok c hg ops h0 (Inv_of_configured c h0 hc0) hran
      (by rw [hE0]; omega) (by rw [hS0]; omega)
  rw [hfold'] at hfold
  injection hfold with hfold
  subst hfold
  refine ⟨hInv', ?_, ?_, ?_, ?_, ?_, ?_⟩
  · rw [hE', hE0]
    omega
  · rw [hS', hS0]
    omega
  · rw [hm1, hcnt]; rfl
  · rw [hm2, hcnt]; rfl
  · rw [hm3, hcnt]; rfl
  · rw [hm4, hit0]

end Histogram

namespace Histogram

/-! ### Concrete configurations and their `configured` histograms -/

/-- The crate's `test_get_index_1` configuration: precision 1, max 100. -/
def cfgE : HistogramConfig := ⟨1, 0, 100, 10⟩

/-- The histogram `configured cfgE` builds (10 inner, 3 outer, 45 total). -/
def histE : Histogram :=
  { config := cfgE
    data := { data := List.replicate 45 0, counters := HistogramCounters.new, iterator := 0 }
    properties :=
      { buckets_inner := 10, buckets_outer := 3, buckets_total := 45,
        memory_used := 1080, linear_max := 15, linear_power := 4 } }

/-- The crate's `test_new_0` configuration: precision 1, max 10. -/
def cfgA : HistogramConfig := ⟨1, 0, 10, 10⟩

/-- The histogram `configured cfgA` builds (purely linear, 15 buckets). -/
def histA : Histogram :=
  { config := cfgA
    data := { data := List.replicate 15 0, counters := HistogramCounters.new, iterator := 0 }
    properties :=
      { buckets_inner := 10, buckets_outer := 0, buckets_total := 15,
        memory_used := 360, linear_max := 15, linear_power := 4 } }

/-- Precision 3 with `max_value = 2^54 - 1`: accepted by `configured`, but
`buckets_inner * max_value` exceeds `2^53`, so the `f64` pipeline rounds. -/
def cfg1 : HistogramConfig := ⟨3, 0, 2 ^ 54 - 1, 10⟩

/-- The histogram `configured cfg1` builds (1000 inner, 44 outer, 45023 total). -/
def hist1 : Histogram :=
  { config := cfg1
    data := { data := List.replicate 45023 0, counters := HistogramCounters.new, iterator := 0 }
    properties :=
      { buckets_inner := 1000, buckets_outer := 44, buckets_total := 45023,
        memory_used := 1080552, linear_max := 1023, linear_power := 10 } }

/-- Precision 3 with the full `u64` range as `max_value`. -/
def cfg9 : HistogramConfig := ⟨3, 0, 2 ^ 64 - 1, 10⟩

/-- The histogram `configured cfg9` builds (1000 inner, 54 outer, 55023 total). -/
def hist9 : Histogram :=
  { config := cfg9
    data := { data := List.replicate 55023 0, counters := HistogramCounters.new, iterator := 0 }
    properties :=
      { buckets_inner := 1000, buckets_outer := 54, buckets_total := 55023,
        memory_used := 1320552, linear_max := 1023, linear_power := 10 } }

/-- A single-bucket configuration: precision 0 (one inner bucket), max 1. -/
def cfg6 : HistogramConfig := ⟨0, 0, 1, 10⟩

/-- `mkHist cfg6 [(2, 1)]`: one sample above `max_value`, so
`entries_total = missed_large = 1` and the single bucket is empty. -/
def hist6 : Histogram :=
  { config := cfg6
    data := { data := [0], counters := ⟨1, 0, 0, 1⟩, iterator := 0 }
    properties :=
      { buckets_inner := 1, buckets_outer := 0, buckets_total := 1,
        memory_used := 24, linear_max := 1, linear_power := 1 } }

/-- `mkHist cfg6 [(1, 2)]`: two in-range samples. -/
def hist7c : Histogram :=
  { config := cfg6
    data := { data := [2], counters := ⟨2, 0, 0, 0⟩, iterator := 0 }
    properties :=
      { buckets_inner := 1, buckets_outer := 0, buckets_total := 1,
        memory_used := 24, linear_max := 1, linear_power := 1 } }

/-- `mkHist cfgA [(1, 3)]`: three in-range samples over the 15-bucket
configuration (a geometry different from `cfg6`). -/
def hist7e : Histogram :=
  { config := cfgA
    data := { data := 3 :: List.replicate 14 0, counters := ⟨3, 0, 0, 0⟩, iterator := 0 }
    properties :=
      { buckets_inner := 10, buckets_outer := 0, buckets_total := 15,
        memory_used := 360, linear_max := 15, linear_power := 4 } }

end Histogram

namespace Histogram

/-- C1: for every `configured` histogram and `linear_max < v ≤ max_value`,
`get_index v` is `some` of the log-linear index `linear_max +
buckets_inner * (floor(log2 v) - linear_power) + floor(buckets_inner *
(v - 2^floor(log2 v)) / 2^floor(log2 v))`, where `floor(log2 v) = bl v - 1`
is the highest set bit position of `v`.  Amended: this holds under the
additional no-rounding condition `buckets_inner * max_value ≤ 2^53`
(part of `GoodConfig`); without it the `f64` pipeline can round, refuting
the unrestricted original statement (see `C1_counterexample`). -/
theorem C1_log_index_formula (c : HistogramConfig) (h : Histogram)
    (hg : GoodConfig c) (hc : configured c = some h)
    (v : Nat) (h1 : h.properties.linear_max < v) (h2 : v ≤ c.max_value) :
    get_index h v = some (h.properties.linear_max
      + h.properties.buckets_inner * (bl v - 1 - h.properties.linear_power)
      + h.properties.buckets_inner * (v - 2 ^ (bl v - 1)) / 2 ^ (bl v - 1)) := by
  obtain ⟨hcfg, hbi, hbo, hbt, hlm, hlp, hdata, hcnt, hit⟩ := configured_eq c h hc
  rw [hlm] at h1
  rw [hlm, hbi, hlp]
  exact (get_index_log_exact c h hg hlm hbi v h1 h2).1

theorem C1_witness :
    get_index histE 17 = some (histE.properties.linear_max
      + histE.properties.buckets_inner * (bl 17 - 1 - histE.properties.linear_power)
      + histE.properties.buckets_inner * (17 - 2 ^ (bl 17 - 1)) / 2 ^ (bl 17 - 1)) :=
  C1_log_index_formula cfgE histE (by decide) (by decide) 17 (by decide) (by decide)

/-- C1 counterexample: `cfg1` (precision 3, `max_value = 2^54 - 1`) is
accepted by `configured`, yet at `v = 9016206453995733` the `f64` pipeline
returns index `44023` while the exact-integer formula of the claim gives
`44024`. -/
theorem C1_counterexample :
    configured cfg1 = some hist1 ∧
    hist1.properties.linear_max < 9016206453995733 ∧
    9016206453995733 ≤ cfg1.max_value ∧
    get_index hist1 9016206453995733 = some 44023 ∧
    hist1.properties.linear_max
      + hist1.properties.buckets_inner
        * (bl 9016206453995733 - 1 - hist1.properties.linear_power)
      + hist1.properties.buckets_inner * (9016206453995733 - 2 ^ (bl 9016206453995733 - 1))
        / 2 ^ (bl 9016206453995733 - 1) = 44024 := by
  refine ⟨by rfl, by decide, by decide, by decide, by decide⟩

/-- C2: in the linear region `1 ≤ v ≤ linear_max` of a `configured`
histogram, `get_index v = some (v - 1)` and `index_value (v - 1) = v`: an
exact round trip. -/
theorem C2_linear_roundtrip (c : HistogramConfig) (h : Histogram)
    (hc : configured c = some h) (v : Nat)
    (h1 : 1 ≤ v) (h2 : v ≤ h.properties.linear_max) :
    get_index h v = some (v - 1) ∧ index_value h (v - 1) = v := by
  obtain ⟨hcfg, hbi, hbo, hbt, hlm, hlp, hdata, hcnt, hit⟩ := configured_eq c h hc
  refine ⟨get_index_linear h v h1 h2, ?_⟩
  have hmax : h.properties.linear_max < U32 := by
    rw [hlm, linearMaxOf]
    have hbl : linearPowerOf c ≤ 32 := by
      rw [linearPowerOf]
      exact bl_le_of_lt (bucketsInnerOf c) 32
        (Nat.mod_lt _ (by rw [show U32 = 2 ^ 32 from rfl]; positivity)) (by omega)
    have : (2 : Nat) ^ linearPowerOf c ≤ 2 ^ 32 := Nat.pow_le_pow_right (by omega) hbl
    rw [show U32 = 2 ^ 32 from rfl]
    omega
  have hv := index_value_linear h (v - 1) (by omega) hmax
  rw [hv]
  omega

theorem C2_witness : get_index histE 15 = some 14 ∧ index_value histE 14 = 15 :=
  C2_linear_roundtrip cfgE histE (by decide) 15 (by decide) (by decide)

/-- C3: geometry of a `configured` histogram: `buckets_inner =
radix^precision`, `linear_max = 2^linear_power - 1`, `buckets_total =
buckets_inner * buckets_outer + linear_max`, and the bucket array length
is `buckets_total`; in particular `(max_value 10, precision 1)` yields 15
buckets and `(max_value 10000, precision 3)` yields 5023.  Amended: the
exact equalities need the `u32` fields not to overflow
(`radix^precision < 2^32` and `buckets_inner * buckets_outer + linear_max
< 2^32`); `configured` accepts configurations where the stored
`buckets_total` wraps mod `2^32` and the closed form fails (see
`C3_counterexample`). -/
theorem C3_geometry (c : HistogramConfig) (h : Histogram)
    (hc : configured c = some h)
    (hB : c.radix ^ c.precision < U32)
    (hT : bucketsInnerOf c * bucketsOuterOf c + linearMaxOf c < U32) :
    h.properties.buckets_inner = c.radix ^ c.precision ∧
    h.properties.linear_max = 2 ^ h.properties.linear_power - 1 ∧
    h.properties.buckets_total
      = h.properties.buckets_inner * h.properties.buckets_outer
        + h.properties.linear_max ∧
    h.data.data.length = h.properties.buckets_total ∧
    (configured ⟨1, 0, 10, 10⟩).map (fun h2 => h2.properties.buckets_total) = some 15 ∧
    (configured ⟨3, 0, 10000, 10⟩).map (fun h2 => h2.properties.buckets_total) = some 5023 := by
  obtain ⟨hcfg, hbi, hbo, hbt, hlm, hlp, hdata, hcnt, hit⟩ := configured_eq c h hc
  refine ⟨?_, ?_, ?_, ?_, by decide, by decide⟩
  · rw [hbi, bucketsInnerOf, Nat.mod_eq_of_lt hB]
  · rw [hlm, hlp]
    rfl
  · rw [hbt, hbi, hbo, hlm, bucketsTotalOf, Nat.mod_eq_of_lt hT]
  · rw [hdata, List.length_replicate, hbt]

theorem C3_witness :
    histA.properties.buckets_inner = cfgA.radix ^ cfgA.precision ∧
    histA.properties.linear_max = 2 ^ histA.properties.linear_power - 1 ∧
    histA.properties.buckets_total
      = histA.properties.buckets_inner * histA.properties.buckets_outer
        + histA.properties.linear_max ∧
    histA.data.data.length = histA.properties.buckets_total ∧
    (configured ⟨1, 0, 10, 10⟩).map (fun h2 => h2.properties.buckets_total) = some 15 ∧
    (configured ⟨3, 0, 10000, 10⟩).map (fun h2 => h2.properties.buckets_total) = some 5023 :=
  C3_geometry cfgA histA (by decide) (by decide) (by decide)

/-- C3 counterexample: the configuration `(precision 9, max_value
2^64 - 1, radix 10)` is accepted by `configured` (its `max_memory` is 0),
yet the stored `u32` `buckets_total` wraps: it holds `(10^9 * 34 +
(2^30 - 1)) mod 2^32 = 714003455` while `buckets_inner * buckets_outer +
linear_max = 35073741823`, so the claimed closed form fails at an
accepted configuration. -/
theorem C3_counterexample :
    (configured ⟨9, 0, 2 ^ 64 - 1, 10⟩).isSome = true ∧
    (configured ⟨9, 0, 2 ^ 64 - 1, 10⟩).map
      (fun h2 => (h2.properties.buckets_total,
        h2.properties.buckets_inner * h2.properties.buckets_outer
          + h2.properties.linear_max)) = some (714003455, 35073741823) ∧
    (714003455 : Nat) ≠ 35073741823 := by
  refine ⟨by decide, by decide, by decide⟩

/-- C4: on every non-panicking path `record value count` saturating-adds
`count` to `entries_total`; and by case: `value < 1` additionally bumps
`missed_small` and returns the ValueTooSmall error, `value > max_value`
bumps `missed_large` and returns the ValueTooLarge error, and an in-range
value saturating-adds `count` to the bucket at `get_index value` and
returns success.  Amended: the success case additionally needs the
computed bucket index to lie inside the array — there are accepted
configurations and in-range values where it does not and `record` panics
on the out-of-bounds write instead of returning success (see
`C4_counterexample`). -/
theorem C4_record_cases (h : Histogram) (v cnt : Nat) :
    (∀ x, record h v cnt = some x →
      x.1.data.counters.entries_total
        = satAdd64 h.data.counters.entries_total cnt) ∧
    (v < 1 → record h v cnt = some ({ h with
        data.counters.entries_total := satAdd64 h.data.counters.entries_total cnt,
        data.counters.missed_small := satAdd64 h.data.counters.missed_small cnt },
        Except.error "sample value too small")) ∧
    (v > h.config.max_value → record h v cnt = some ({ h with
        data.counters.entries_total := satAdd64 h.data.counters.entries_total cnt,
        data.counters.missed_large := satAdd64 h.data.counters.missed_large cnt },
        Except.error "sample value too large")) ∧
    (∀ i, 1 ≤ v → v ≤ h.config.max_value → get_index h v = some i →
      i < h.data.data.length → record h v cnt = some ({ h with
        data.counters.entries_total := satAdd64 h.data.counters.entries_total cnt,
        data.data := h.data.data.set i (satAdd64 (h.data.data.getD i 0) cnt) },
        Except.ok ())) := by
  refine ⟨?_, ?_, ?_, ?_⟩
  · intro x hrec
    rw [record] at hrec
    split_ifs at hrec with hv1 hv2
    · injection hrec with hp
      subst hp
      rfl
    · injection hrec with hp
      subst hp
      rfl
    · split at hrec
      · split_ifs at hrec with hil
        injection hrec with hp
        subst hp
        rfl
      · injection hrec with hp
        subst hp
        rfl
  · intro hv1
    rw [record, if_pos hv1]
  · intro hv2
    rw [record, if_neg (by omega : ¬ v < 1), if_pos hv2]
  · exact fun i h1 h2 hi hil => record_ok h v cnt i h1 h2 hi hil

theorem C4_witness :
    record histE 0 3 = some ({ histE with
      data.counters.entries_total := satAdd64 histE.data.counters.entries_total 3,
      data.counters.missed_small := satAdd64 histE.data.counters.missed_small 3 },
      Except.error "sample value too small") :=
  (C4_record_cases histE 0 3).2.1 (by decide)

/-- C4 counterexample: on the `configured` histogram for `cfg9` the value
`2^64 - 1` is in range (`1 ≤ v ≤ max_value`), yet `record` does not
saturating-add into a bucket and return success: the computed index falls
one past the bucket array and the write panics (`none`). -/
theorem C4_counterexample :
    configured cfg9 = some hist9 ∧
    1 ≤ 2 ^ 64 - 1 ∧
    (2 ^ 64 - 1 : Nat) ≤ hist9.config.max_value ∧
    record hist9 (2 ^ 64 - 1) 1 = none := by
  refine ⟨by rfl, by decide, by decide, ?_⟩
  refine record_oob hist9 (2 ^ 64 - 1) 1 55023 (by decide) (by decide) (by decide) ?_
  show ¬ 55023 < (List.replicate 55023 (0 : Nat)).length
  rw [List.length_replicate]
  decide

/-- C5: refuted — `get` is missing the upper bound check.  On the
`configured` histogram for `cfgE` (`max_value = 100`, 45 buckets) the value
`1024 > max_value` yields bucket index `75`, past the end of the array, and
the Rust code indexes it unchecked: an out-of-bounds read (modelled as
`none`) instead of an absent result. -/
theorem C5_get_unchecked_bound :
    configured cfgE = some histE ∧
    cfgE.max_value = 100 ∧
    histE.data.data.length = 45 ∧
    get_index histE 1024 = some 75 ∧
    get histE 1024 = none := by
  refine ⟨by decide, by decide, by decide, by decide, by decide⟩

end Histogram

namespace Histogram

/-- C6: `percentile p` fails with NoData whenever `entries_total = 0`, for
every `p`; and with data present and `p ∈ [0, 100]`, when the starting
missed mass (`missed_small` for the ascending `p < 50` scan, `missed_large`
for the descending scan — the `acc0` of `percentilePrep`) already meets or
exceeds the transformed, 1-clamped `need`, it fails immediately without
consulting any bucket.  Amended: the failure kind is chosen by the literal
test `start index = 0`, so it is Underflow for every scan starting at
index 0 — including the descending scan of a single-bucket histogram
(`C6_counterexample`) — and Overflow otherwise, not strictly by scan
direction as the original claim says. -/
theorem C6_percentile_early_exit (h : Histogram) (p : Frac) :
    (h.entries < 1 → percentile h p = some (Except.error "no data")) ∧
    (1 ≤ h.entries →
      Frac.ble p (Frac.ofNat 100) = true → Frac.ble (Frac.ofNat 0) p = true →
      (percentilePrep h p).1 ≤ (percentilePrep h p).2.2.2 →
      percentile h p = some (Except.error
        (if (percentilePrep h p).2.1 = 0 then "underflow" else "overflow"))) := by
  constructor
  · intro he
    rw [percentile, if_pos he]
  · intro he hp1 hp2 hacc
    have hcond : (Frac.ble p (Frac.ofNat 100) && Frac.ble (Frac.ofNat 0) p) = true := by
      rw [hp1, hp2]
      rfl
    simp only [percentile]
    rw [if_neg (by omega : ¬ h.entries < 1), if_pos hcond, if_pos hacc]

theorem C6_witness :
    percentile hist6 ⟨100, 1⟩ = some (Except.error
      (if (percentilePrep hist6 ⟨100, 1⟩).2.1 = 0 then "underflow" else "overflow")) :=
  (C6_percentile_early_exit hist6 ⟨100, 1⟩).2 (by decide) (by decide) (by decide) (by decide)

/-- C6 counterexample: `hist6` is the single-bucket histogram for `cfg6`
after one too-large sample (`entries_total = missed_large = 1`).  At
`p = 100` the scan is descending (`p ≥ 50`, scanning from the top), yet its
start index — the top bucket `buckets_total - 1 = 0` — makes the early exit
report "underflow" where the claim promises Overflow. -/
theorem C6_counterexample :
    mkHist cfg6 [(2, 1)] = some hist6 ∧
    1 ≤ hist6.entries ∧
    hist6.data.counters.missed_large = 1 ∧
    Frac.blt ⟨100, 1⟩ (Frac.ofNat 50) = false ∧
    percentile hist6 ⟨100, 1⟩ = some (Except.error "underflow") := by
  refine ⟨by decide, by decide, by decide, by decide, by decide⟩

/-- C7: merging two histograms built (over their own accepted
configurations `ca` and `cb`, possibly different) from samples that lie in
`[1, max_value]` of both configurations — so neither histogram has missed
samples — adds the entry totals: `entries (merge a b) = entries a +
entries b`.  Amended: this additionally needs the combined recorded count
to fit in `u64` (below `2^64`); the saturating adds of `record` break the
unconditional original statement (see `C7_counterexample`). -/
theorem C7_merge_entries (ca cb : HistogramConfig) (ops1 ops2 : List (Nat × Nat))
    (a b : Histogram) (hga : GoodConfig ca) (hgb : GoodConfig cb)
    (ha : mkHist ca ops1 = some a) (hb : mkHist cb ops2 = some b)
    (h1 : ∀ p ∈ ops1, 1 ≤ p.1 ∧ p.1 ≤ ca.max_value ∧ p.1 ≤ cb.max_value)
    (h2 : ∀ p ∈ ops2, 1 ≤ p.1 ∧ p.1 ≤ ca.max_value ∧ p.1 ≤ cb.max_value)
    (hov : (ops1.map Prod.snd).sum + (ops2.map Prod.snd).sum < 2 ^ 64) :
    ∃ m, merge a b = some m ∧ entries m = entries a + entries b := by
  obtain ⟨hInva, hEa, hSa, -, -, -, -⟩ := mkHist_inv ca ops1 a hga ha
    (fun p hp => ⟨(h1 p hp).1, (h1 p hp).2.1⟩) (by omega)
  obtain ⟨hInvb, hEb, hSb, -, -, -, hitb⟩ := mkHist_inv cb ops2 b hgb hb
    (fun p hp => ⟨(h2 p hp).1, (h2 p hp).2.2⟩) (by omega)
  have hlenb : b.data.data.length = bucketsTotalOf cb := hInvb.2.2.2.2.2.2
  have hbt : b.properties.buckets_total = bucketsTotalOf cb := hInvb.2.2.2.1
  obtain ⟨m, hm, -, hEm⟩ := merge_fold ca hga b b.data.data.length a hInva le_rfl
    (by rw [List.take_length, hEa, hSb]; omega)
  refine ⟨m, ?_, ?_⟩
  · rw [merge,
      if_neg (show ¬ b.properties.buckets_total < b.data.iterator by rw [hitb]; omega),
      hitb, List.drop_zero, hbt, ← hlenb]
    exact hm
  · show m.data.counters.entries_total
      = a.data.counters.entries_total + b.data.counters.entries_total
    rw [hEm, List.take_length, hSb, hEb]

theorem C7_witness :
    ∃ m, merge hist7c hist7e = some m ∧ entries m = entries hist7c + entries hist7e :=
  C7_merge_entries cfg6 cfgA [(1, 2)] [(1, 3)] hist7c hist7e (by decide) (by decide)
    (by decide) (by decide) (by decide) (by decide) (by decide)

/-- C7 counterexample: all samples are in range for `cfg6`, yet recording a
count of `2^64 - 1` saturates `entries_total`, so the merged total is
`2^64 - 1` while the sum of the two originals is `2^64`. -/
theorem C7_counterexample :
    ((mkHist cfg6 [(1, 2 ^ 64 - 1)]).bind fun a =>
      (mkHist cfg6 [(1, 1)]).bind fun b =>
        (merge a b).map entries) = some (2 ^ 64 - 1) ∧
    ((mkHist cfg6 [(1, 2 ^ 64 - 1)]).bind fun a =>
      (mkHist cfg6 [(1, 1)]).map fun b =>
        entries a + entries b) = some (2 ^ 64) ∧
    (∀ q ∈ [((1 : Nat), 2 ^ 64 - 1), ((1 : Nat), 1)],
      1 ≤ q.1 ∧ q.1 ≤ cfg6.max_value) := by
  refine ⟨by decide, by decide, by decide⟩

/-- C8: `clear` zeroes `entries_total`, every `missed` counter and every
bucket, keeps the bucket array length, and leaves the configuration and all
derived properties (`buckets_inner`, `buckets_outer`, `buckets_total`,
`memory_used`, `linear_max`, `linear_power`) unchanged. -/
theorem C8_clear_resets (h : Histogram) :
    (clear h).data.counters.entries_total = 0 ∧
    (clear h).data.counters.missed_small = 0 ∧
    (clear h).data.counters.missed_large = 0 ∧
    (clear h).data.counters.missed_unknown = 0 ∧
    (∀ i, (clear h).data.data.getD i 0 = 0) ∧
    (clear h).data.data.length = h.data.data.length ∧
    (clear h).config = h.config ∧
    (clear h).properties = h.properties := by
  refine ⟨rfl, rfl, rfl, rfl, ?_, ?_, rfl, rfl⟩
  · intro i
    show (h.data.data.map (fun _ => 0)).getD i 0 = 0
    by_cases hi : i < h.data.data.length
    · exact getD_map_zero h.data.data i hi
    · rw [List.getD_eq_default]
      rw [List.length_map]
      omega
  · show (h.data.data.map (fun _ => 0)).length = h.data.data.length
    exact List.length_map _ _

/-- C9: refuted — the configuration `cfg9` (precision 3, `max_value =
2^64 - 1`) is accepted by `configured`, yet the in-range value `2^64 - 1`
maps to index `55023 = buckets_total`, one past the bucket array, so the
`record` write is out of bounds and the Rust code panics (modelled as
`none`) instead of the index staying below `buckets_total`. -/
theorem C9_record_out_of_bounds :
    configured cfg9 = some hist9 ∧
    1 ≤ 2 ^ 64 - 1 ∧
    (2 ^ 64 - 1 : Nat) ≤ cfg9.max_value ∧
    get_index hist9 (2 ^ 64 - 1) = some hist9.properties.buckets_total ∧
    record hist9 (2 ^ 64 - 1) 1 = none := by
  refine ⟨by rfl, by decide, by decide, by decide, ?_⟩
  refine record_oob hist9 (2 ^ 64 - 1) 1 55023 (by decide) (by decide) (by decide) ?_
  show ¬ 55023 < (List.replicate 55023 (0 : Nat)).length
  rw [List.length_replicate]
  decide

/-- C10: with data present, an out-of-range percentile argument (`p < 0`
or `p > 100`) reaches only the generic "unknown failure" error:
`percentile` neither clamps `p` into `[0, 100]` nor returns a value. -/
theorem C10_percentile_out_of_range (h : Histogram) (p : Frac)
    (he : 1 ≤ h.entries)
    (hp : Frac.blt (Frac.ofNat 100) p = true ∨ Frac.blt p (Frac.ofNat 0) = true) :
    percentile h p = some (Except.error "unknown failure") := by
  have hcond : (Frac.ble p (Frac.ofNat 100) && Frac.ble (Frac.ofNat 0) p) = false := by
    simp only [Frac.blt, decide_eq_true_eq] at hp
    simp only [Frac.ble, Bool.and_eq_false_iff, decide_eq_false_iff_not, not_le]
    rcases hp with hgt | hlt
    · left
      simpa using hgt
    · right
      simpa using hlt
  rw [percentile, if_neg (by omega : ¬ h.entries < 1),
    if_neg (by rw [hcond]; exact Bool.false_ne_true)]

theorem C10_witness : percentile hist6 ⟨101, 1⟩ = some (Except.error "unknown failure") :=
  C10_percentile_out_of_range hist6 ⟨101, 1⟩ (by decide) (Or.inl (by decide))

end Histogram
